import Mathlib

/-!
# Verification of the git-regraph core

A shallow embedding of the `git-regraph` library (`src/lib/src/lib.rs`).
Commits live in a content-addressed object store; `regraph` applies a
`CommitEdit` to one target commit, walks the commits reachable from the
resolved refs, rebuilds the affected descendants with remapped parent ids,
and finally retargets the refs through the accumulated remap table.

The object store is modelled as an association list from ids to commit
data; content addressing is modelled by `Store.createCommit`, which returns
the existing id when the same data is already stored and a fresh id
otherwise.  Commit messages are modelled as either valid UTF-8 text or
undecodable raw bytes, mirroring `git2::Commit::message` returning
`Option<&str>`.  The `regraph` model additionally exposes, as ghost output,
the remap table, the discovered commit list and a trace of coarse events,
so that ordering and bookkeeping properties of the Rust code can be stated.
-/

set_option autoImplicit false

namespace GitRegraph

/-- Object identifier (`git2::Oid`), modelled as a natural number. -/
abbrev Oid := Nat

/-- Author/committer signature (`git2::Signature`): name, email, time. -/
structure Signature where
  name : String
  email : String
  whenSec : Int
  whenOffset : Int
deriving DecidableEq

/-- A stored commit message: either valid UTF-8 text, or raw bytes that
cannot be decoded (for which `git2::Commit::message` returns `None`). -/
inductive Msg where
  | utf8 (s : String)
  | binary (bytes : List Nat)
deriving DecidableEq

/-- Decode a stored message, as `git2::Commit::message` does. -/
def Msg.decode : Msg → Option String
  | .utf8 s => some s
  | .binary _ => none

/-- The content of a commit object: parents (ordered, duplicates allowed),
tree, message, author and committer.  The id of a commit is a function of
this data (content addressing). -/
structure CommitData where
  parent_ids : List Oid
  tree_id : Oid
  message : Msg
  author : Signature
  committer : Signature
deriving DecidableEq

/-- The commit object store: an association list from ids to commit data,
in creation order (parents are always created before children). -/
structure Store where
  commits : List (Oid × CommitData)
deriving DecidableEq

/-- The ids present in the store, in creation order. -/
def Store.oids (s : Store) : List Oid := s.commits.map Prod.fst

/-- Recursive worker for `Store.findCommit`: first entry with the given id. -/
def findCommitAux : List (Oid × CommitData) → Oid → Option CommitData
  | [], _ => none
  | e :: rest, oid => if e.1 = oid then some e.2 else findCommitAux rest oid

/-- Look a commit up by id (`Repository::find_commit`). -/
def Store.findCommit (s : Store) (oid : Oid) : Option CommitData :=
  findCommitAux s.commits oid

/-- Recursive worker for `Store.lookupByData`: first entry with the data. -/
def lookupByDataAux : List (Oid × CommitData) → CommitData → Option Oid
  | [], _ => none
  | e :: rest, d => if e.2 = d then some e.1 else lookupByDataAux rest d

/-- Look an id up by content, modelling that hashing identical content
yields the identifier of the already-stored object. -/
def Store.lookupByData (s : Store) (d : CommitData) : Option Oid :=
  lookupByDataAux s.commits d

/-- Maximum of a list of ids, used to produce fresh ids. -/
def maxOidList : List Oid → Nat
  | [] => 0
  | x :: rest => max x (maxOidList rest)

/-- A fresh id, distinct from every commit id in the store. -/
def Store.freshOid (s : Store) : Oid := maxOidList s.oids + 1

/-- Content-addressed commit creation (`Repository::commit` with no update
ref): if the exact content is already stored, return its existing id and
leave the store unchanged; otherwise append the object under a fresh id. -/
def Store.createCommit (s : Store) (d : CommitData) : Store × Oid :=
  match s.lookupByData d with
  | some id => (s, id)
  | none => (⟨s.commits ++ [(s.freshOid, d)]⟩, s.freshOid)

/-- One marking step of the reachability computation: when this entry's id
is already marked, mark all of its parents as well. -/
def reachStep (e : Oid × CommitData) (acc : List Oid) : List Oid :=
  if e.1 ∈ acc then acc ++ e.2.parent_ids else acc

/-- Ids reachable from `tips` in the store, computed by scanning the
commit list from newest (children) to oldest (parents). -/
def Store.reachable (s : Store) (tips : List Oid) : List Oid :=
  s.commits.foldr reachStep tips

/-- A named reference: a mutable pointer to one commit id
(`git2::Reference`, restricted to direct references). -/
structure Reference where
  name : String
  target : Oid
  isRemote : Bool
deriving DecidableEq

/-- One reflog entry recorded by a reference-target update. -/
structure ReflogEntry where
  refName : String
  message : String
  newTarget : Oid
deriving DecidableEq

/-- Repository state: the object store, the references, and the reflog. -/
structure Repo where
  store : Store
  refs : List Reference
  reflog : List ReflogEntry
deriving DecidableEq

/-- Retarget every reference with the given name and append one reflog
entry (`Reference::set_target`). -/
def Repo.setTarget (repo : Repo) (name : String) (newTarget : Oid) (msg : String) : Repo :=
  { repo with
    refs := repo.refs.map (fun r => if r.name = name then { r with target := newTarget } else r),
    reflog := repo.reflog ++ [{ refName := name, message := msg, newTarget := newTarget }] }

/-- The refs-to-update argument of `regraph`: all local refs, or an
explicit list (`RefArg` in the Rust source). -/
inductive RefArg where
  | allLocalRefs
  | refs (l : List Reference)

/-- Resolve the refs argument against the repository, filtering out remote
references in the `allLocalRefs` case (`RefArg::resolve`). -/
def RefArg.resolve (a : RefArg) (repo : Repo) : List Reference :=
  match a with
  | .allLocalRefs => repo.refs.filter (fun r => !r.isRemote)
  | .refs l => l

/-- The error type of the library (`RegraphError`).  `git2Error` stands for
an error reported by the underlying git layer (here: a missing object). -/
inductive RegraphError where
  | git2Error (oid : Oid)
  | commitWithInvalidUtf8Message (commit : Oid)
  | noChange
deriving DecidableEq

/-- The edit descriptor (`CommitEdit`): five independent optional
overrides; `none` means keep the original field. -/
structure CommitEdit where
  parents : Option (List Oid) := none
  message : Option String := none
  tree : Option Oid := none
  author : Option Signature := none
  committer : Option Signature := none
deriving DecidableEq

/-- Apply an edit descriptor to a target commit, creating the edited commit
in the store (`CommitEdit::create_edited_commit`).  The original message is
decoded unconditionally — mirroring that in the Rust source the argument of
`unwrap_or` is evaluated eagerly, so `original.message().ok_or(...)?` runs
even when the descriptor overrides the message. -/
def create_edited_commit (s : Store) (edit : CommitEdit) (origId : Oid) (orig : CommitData) :
    Except RegraphError (Store × Oid) :=
  match orig.message.decode with
  | none => .error (.commitWithInvalidUtf8Message origId)
  | some origMsg =>
    .ok (s.createCommit
      { parent_ids := edit.parents.getD orig.parent_ids,
        tree_id := edit.tree.getD orig.tree_id,
        message := .utf8 (edit.message.getD origMsg),
        author := edit.author.getD orig.author,
        committer := edit.committer.getD orig.committer })

/-- Remap-table lookup (`HashMap::get`): first entry with the given key. -/
def tableLookup : List (Oid × Oid) → Oid → Option Oid
  | [], _ => none
  | e :: rest, k => if e.1 = k then some e.2 else tableLookup rest k

/-- The requested sort discipline of the revwalk: libgit2 topological order
(children before parents) or its reverse. -/
inductive SortMode where
  | topological
  | topologicalReverse
deriving DecidableEq

/-- Emit a walk result in the requested order, given the commits that pass
the reachability filter listed in creation (parents-first) order.  Plain
`TOPOLOGICAL` yields children before parents; adding `REVERSE` yields
parents before children. -/
def sortedWalk (mode : SortMode) (parentsFirst : List Oid) : List Oid :=
  match mode with
  | .topological => parentsFirst.reverse
  | .topologicalReverse => parentsFirst

/-- Discover the commits to examine (`discover_old_commits`): all commits
reachable from the resolved refs' targets and not reachable from the
hidden id, sorted with `TOPOLOGICAL | REVERSE`.  Note the Rust code hides
`edited_commit_oid` — the id of the newly created edited commit. -/
def discover_old_commits (s : Store) (resolvedRefs : List Reference) (editedCommitOid : Oid) :
    List Oid :=
  let starts := resolvedRefs.map Reference.target
  let reach := s.reachable starts
  let hidden := s.reachable [editedCommitOid]
  sortedWalk .topologicalReverse
    ((s.commits.filter (fun e => decide (e.1 ∈ reach) && !decide (e.1 ∈ hidden))).map Prod.fst)

/-- The body of the rebuild loop in `update_affected_commits`, for a single
visited commit id: when some parent is a key of the remap table, rebuild
the commit with each parent id substituted through the table, preserving
message, tree, author and committer, and record the remapping; otherwise
leave store and table unchanged. -/
def processOne (s : Store) (t : List (Oid × Oid)) (oid : Oid) :
    Store × List (Oid × Oid) × Option RegraphError :=
  match s.findCommit oid with
  | none => (s, t, some (.git2Error oid))
  | some d =>
    if d.parent_ids.any (fun p => (tableLookup t p).isSome) then
      let newParents := d.parent_ids.map (fun p => (tableLookup t p).getD p)
      match newParents.find? (fun p => (s.findCommit p).isNone) with
      | some p => (s, t, some (.git2Error p))
      | none =>
        match d.message.decode with
        | none => (s, t, some (.commitWithInvalidUtf8Message oid))
        | some m =>
          let res := s.createCommit
            { parent_ids := newParents, tree_id := d.tree_id, message := .utf8 m,
              author := d.author, committer := d.committer }
          (res.1, (oid, res.2) :: t, none)
    else (s, t, none)

/-- The rebuild loop (`update_affected_commits`): process the discovered
commits in order, stopping at the first error.  Returns the store and
table as mutated so far, plus the error if any. -/
def update_affected_commits (s : Store) (t : List (Oid × Oid)) :
    List Oid → Store × List (Oid × Oid) × Option RegraphError
  | [] => (s, t, none)
  | c :: rest =>
    match processOne s t c with
    | (s', t', none) => update_affected_commits s' t' rest
    | (s', t', some e) => (s', t', some e)

/-- The rewrite path below the edited commit: scanning the walked ids in
order, a commit joins the path when one of its parents is a key so far —
initially only the edited target's original id, then also every earlier
member of the path.  This is exactly the set of walked commits for which
the loop's `needs_updating` test fires in an error-free run, stated
without the remap table. -/
def affectedBy (s : Store) : List Oid → List Oid → List Oid
  | _, [] => []
  | keys, c :: rest =>
    match s.findCommit c with
    | none => affectedBy s keys rest
    | some d =>
      if d.parent_ids.any (fun p => decide (p ∈ keys)) then
        c :: affectedBy s (c :: keys) rest
      else affectedBy s keys rest

/-- The reflog message used for every ref update of one regraph run. -/
def reflogMessage (oldOid newOid : Oid) : String :=
  "regraph: update after editing commit " ++ toString oldOid ++ " -> " ++ toString newOid

/-- Recursive worker for `update_refs`. -/
def updateRefsGo (msg : String) (t : List (Oid × Oid)) : Repo → List Reference → Repo
  | repo, [] => repo
  | repo, r :: rest =>
    match tableLookup t r.target with
    | some newOid => updateRefsGo msg t (repo.setTarget r.name newOid msg) rest
    | none => updateRefsGo msg t repo rest

/-- Retarget the resolved references through the remap table
(`update_refs`): a reference whose current target is a key of the table is
set to the corresponding value with one reflog entry; other references are
left untouched. -/
def update_refs (repo : Repo) (resolvedRefs : List Reference)
    (oldEditedOid newEditedOid : Oid) (t : List (Oid × Oid)) : Repo :=
  updateRefsGo (reflogMessage oldEditedOid newEditedOid) t repo resolvedRefs

/-- Coarse events of one regraph run, used to state ordering properties. -/
inductive Event where
  | applyEdit
  | resolveRefs
  | walkCommits
  | setRefTarget (name : String)
deriving DecidableEq

/-- The observable outcome of one `regraph` call: the final repository and
the returned error, plus ghost data (the remap table, the discovered
commit list, and the event trace) used to state the specification. -/
structure RunResult where
  repo : Repo
  result : Option RegraphError
  table : List (Oid × Oid)
  walked : List Oid
  trace : List Event
deriving DecidableEq

/-- The `regraph` entry point (`RepositoryExt::regraph`), mirroring the
Rust control flow: create the edited commit, fail with `noChange` if its
id equals the target's, seed the remap table, resolve the refs, discover
the commits to examine (hiding the edited commit's id), rebuild the
affected commits, and finally update the refs.  No reference is touched
unless every prior step succeeded. -/
def regraph (repo : Repo) (refsToUpdate : RefArg) (target : Oid × CommitData)
    (edit : CommitEdit) : RunResult :=
  match create_edited_commit repo.store edit target.1 target.2 with
  | .error e =>
    { repo := repo, result := some e, table := [], walked := [], trace := [.applyEdit] }
  | .ok sOid =>
    let store1 := sOid.1
    let editedCommitOid := sOid.2
    let repo1 : Repo := { repo with store := store1 }
    if editedCommitOid = target.1 then
      { repo := repo1, result := some .noChange, table := [], walked := [],
        trace := [.applyEdit] }
    else
      let table0 : List (Oid × Oid) := [(target.1, editedCommitOid)]
      let resolvedRefs := refsToUpdate.resolve repo1
      let walked := discover_old_commits store1 resolvedRefs editedCommitOid
      match update_affected_commits store1 table0 walked with
      | (store2, table1, some e) =>
        { repo := { repo1 with store := store2 }, result := some e, table := table1,
          walked := walked, trace := [.applyEdit, .resolveRefs, .walkCommits] }
      | (store2, table1, none) =>
        let repo2 : Repo := { repo1 with store := store2 }
        let repo3 := update_refs repo2 resolvedRefs target.1 editedCommitOid table1
        { repo := repo3, result := none, table := table1, walked := walked,
          trace := [.applyEdit, .resolveRefs, .walkCommits] ++
            resolvedRefs.filterMap (fun r =>
              if (tableLookup table1 r.target).isSome then some (.setRefTarget r.name)
              else none) }

/-- Boolean check that every commit's parents were already present when the
commit was appended: `seen` accumulates the ids of earlier entries. -/
def parentsClosedAux (seen : List Oid) : List (Oid × CommitData) → Bool
  | [] => true
  | e :: rest =>
    e.2.parent_ids.all (fun p => decide (p ∈ seen)) && parentsClosedAux (e.1 :: seen) rest

/-- Well-formedness of a store: distinct ids, distinct contents (content
addressing is injective), and every commit's parents precede it. -/
def Store.WF (s : Store) : Prop :=
  (s.commits.map Prod.fst).Nodup ∧ (s.commits.map Prod.snd).Nodup ∧
    parentsClosedAux [] s.commits = true

/-- The store `s'` extends `s` by appending newly created objects only. -/
def Store.Ext (s s' : Store) : Prop := ∃ l, s'.commits = s.commits ++ l

/-- Inputs on which the Rust run is modelled exactly: a well-formed store,
a target commit object consistent with the store, and edit parents that
name existing commits. -/
def ValidInputs (repo : Repo) (target : Oid × CommitData) (edit : CommitEdit) : Prop :=
  repo.store.WF ∧ repo.store.findCommit target.1 = some target.2 ∧
    ∀ p ∈ edit.parents.getD [], p ∈ repo.store.oids

instance (s : Store) : Decidable s.WF := by
  unfold Store.WF
  infer_instance

instance (repo : Repo) (target : Oid × CommitData) (edit : CommitEdit) :
    Decidable (ValidInputs repo target edit) := by
  unfold ValidInputs
  infer_instance

/-- The current target of the reference with the given name, if any. -/
def Repo.refTarget (repo : Repo) (name : String) : Option Oid :=
  (repo.refs.find? (fun r => r.name == name)).map Reference.target

/-- The claim that, in a run's event trace, the refs are resolved before
the edit is applied to the target commit. -/
def ResolveBeforeApply (tr : List Event) : Prop :=
  ∀ i j : Fin tr.length, tr.get i = Event.resolveRefs → tr.get j = Event.applyEdit →
    (i : Nat) < (j : Nat)

instance (tr : List Event) : Decidable (ResolveBeforeApply tr) := by
  unfold ResolveBeforeApply
  infer_instance

/-! ### Basic lemmas about the store lookups -/

theorem findCommitAux_eq_some_mem {l : List (Oid × CommitData)} {oid : Oid} {d : CommitData}
    (h : findCommitAux l oid = some d) : (oid, d) ∈ l := by
  induction l with
  | nil => simp [findCommitAux] at h
  | cons e rest ih =>
    rw [findCommitAux] at h
    split at h
    · rename_i heq
      cases h
      rw [← heq]
      exact List.mem_cons_self _ _
    · right
      exact ih h

theorem findCommitAux_eq_none_of_not_mem {l : List (Oid × CommitData)} {oid : Oid}
    (h : oid ∉ l.map Prod.fst) : findCommitAux l oid = none := by
  induction l with
  | nil => rfl
  | cons e rest ih =>
    rw [findCommitAux]
    simp only [List.map_cons, List.mem_cons] at h
    push_neg at h
    rw [if_neg (fun hh => h.1 hh.symm), ih h.2]

theorem findCommitAux_isSome_of_mem {l : List (Oid × CommitData)} {oid : Oid}
    (h : oid ∈ l.map Prod.fst) : (findCommitAux l oid).isSome := by
  induction l with
  | nil => simp at h
  | cons e rest ih =>
    rw [findCommitAux]
    split
    · rfl
    · rename_i hne
      simp only [List.map_cons, List.mem_cons] at h
      rcases h with h | h
      · exact absurd h.symm hne
      · exact ih h

theorem mem_of_findCommitAux_eq_some {l : List (Oid × CommitData)} {oid : Oid} {d : CommitData}
    (h : findCommitAux l oid = some d) : oid ∈ l.map Prod.fst := by
  have := findCommitAux_eq_some_mem h
  exact List.mem_map.mpr ⟨(oid, d), this, rfl⟩

theorem findCommitAux_append_left {l₁ l₂ : List (Oid × CommitData)} {oid : Oid} {d : CommitData}
    (h : findCommitAux l₁ oid = some d) : findCommitAux (l₁ ++ l₂) oid = some d := by
  induction l₁ with
  | nil => simp [findCommitAux] at h
  | cons e rest ih =>
    rw [findCommitAux] at h
    rw [List.cons_append, findCommitAux]
    split at h
    · rename_i heq
      rw [if_pos heq]
      exact h
    · rename_i hne
      rw [if_neg hne]
      exact ih h

theorem findCommitAux_append_right {l₁ l₂ : List (Oid × CommitData)} {oid : Oid}
    (h : findCommitAux l₁ oid = none) : findCommitAux (l₁ ++ l₂) oid = findCommitAux l₂ oid := by
  induction l₁ with
  | nil => rfl
  | cons e rest ih =>
    rw [findCommitAux] at h
    rw [List.cons_append, findCommitAux]
    split at h
    · cases h
    · rename_i hne
      rw [if_neg hne]
      exact ih h

theorem findCommitAux_of_mem_nodup {l : List (Oid × CommitData)}
    (hnd : (l.map Prod.fst).Nodup) {oid : Oid} {d : CommitData} (h : (oid, d) ∈ l) :
    findCommitAux l oid = some d := by
  induction l with
  | nil => simp at h
  | cons e rest ih =>
    simp only [List.map_cons, List.nodup_cons] at hnd
    rw [findCommitAux]
    rcases List.mem_cons.mp h with h | h
    · rw [← h]
      simp
    · have hne : e.1 ≠ oid := by
        intro heq
        exact hnd.1 (heq ▸ List.mem_map.mpr ⟨(oid, d), h, rfl⟩)
      rw [if_neg hne]
      exact ih hnd.2 h

theorem eq_of_mem_fst_nodup {l : List (Oid × CommitData)} (hnd : (l.map Prod.fst).Nodup)
    {k : Oid} {a b : CommitData} (ha : (k, a) ∈ l) (hb : (k, b) ∈ l) : a = b := by
  have h1 := findCommitAux_of_mem_nodup hnd ha
  have h2 := findCommitAux_of_mem_nodup hnd hb
  rw [h1] at h2
  exact Option.some.inj h2

theorem lookupByDataAux_eq_some_mem {l : List (Oid × CommitData)} {d : CommitData} {id : Oid}
    (h : lookupByDataAux l d = some id) : (id, d) ∈ l := by
  induction l with
  | nil => simp [lookupByDataAux] at h
  | cons e rest ih =>
    rw [lookupByDataAux] at h
    split at h
    · rename_i heq
      cases h
      rw [← heq]
      exact List.mem_cons_self _ _
    · right
      exact ih h

theorem lookupByDataAux_of_mem_nodup {l : List (Oid × CommitData)}
    (hnd : (l.map Prod.snd).Nodup) {id : Oid} {d : CommitData} (h : (id, d) ∈ l) :
    lookupByDataAux l d = some id := by
  induction l with
  | nil => simp at h
  | cons e rest ih =>
    simp only [List.map_cons, List.nodup_cons] at hnd
    rw [lookupByDataAux]
    rcases List.mem_cons.mp h with h | h
    · rw [← h]
      simp
    · have hne : e.2 ≠ d := by
        intro heq
        exact hnd.1 (heq ▸ List.mem_map.mpr ⟨(id, d), h, rfl⟩)
      rw [if_neg hne]
      exact ih hnd.2 h

theorem lookupByDataAux_eq_none {l : List (Oid × CommitData)} {d : CommitData}
    (h : lookupByDataAux l d = none) : ∀ e ∈ l, e.2 ≠ d := by
  induction l with
  | nil => simp
  | cons e rest ih =>
    rw [lookupByDataAux] at h
    split at h
    · cases h
    · rename_i hne
      intro x hx
      rcases List.mem_cons.mp hx with hx | hx
      · rw [hx]
        exact hne
      · exact ih h x hx

theorem le_maxOidList_of_mem {l : List Oid} {x : Oid} (h : x ∈ l) : x ≤ maxOidList l := by
  induction l with
  | nil => simp at h
  | cons y rest ih =>
    rw [maxOidList]
    rcases List.mem_cons.mp h with h | h
    · exact h ▸ le_max_left _ _
    · exact le_trans (ih h) (le_max_right _ _)

theorem freshOid_not_mem (s : Store) : s.freshOid ∉ s.oids := by
  intro hmem
  have h : maxOidList s.oids + 1 ≤ maxOidList s.oids := le_maxOidList_of_mem hmem
  omega

/-! ### Store extension -/

theorem Store.Ext.rfl (s : Store) : s.Ext s := ⟨[], by simp⟩

theorem Store.Ext.trans {s₁ s₂ s₃ : Store} (h₁ : s₁.Ext s₂) (h₂ : s₂.Ext s₃) : s₁.Ext s₃ := by
  obtain ⟨l₁, hl₁⟩ := h₁
  obtain ⟨l₂, hl₂⟩ := h₂
  exact ⟨l₁ ++ l₂, by rw [hl₂, hl₁, List.append_assoc]⟩

theorem Store.Ext.findCommit_eq {s s' : Store} (hext : s.Ext s') {oid : Oid} {d : CommitData}
    (h : s.findCommit oid = some d) : s'.findCommit oid = some d := by
  obtain ⟨l, hl⟩ := hext
  rw [Store.findCommit, hl]
  exact findCommitAux_append_left h

theorem Store.Ext.mem_oids {s s' : Store} (hext : s.Ext s') {oid : Oid}
    (h : oid ∈ s.oids) : oid ∈ s'.oids := by
  obtain ⟨l, hl⟩ := hext
  rw [Store.oids, hl, List.map_append]
  exact List.mem_append_left _ h

theorem findCommit_isSome_of_mem {s : Store} {oid : Oid} (h : oid ∈ s.oids) :
    (s.findCommit oid).isSome :=
  findCommitAux_isSome_of_mem h

theorem mem_oids_of_findCommit_eq_some {s : Store} {oid : Oid} {d : CommitData}
    (h : s.findCommit oid = some d) : oid ∈ s.oids :=
  mem_of_findCommitAux_eq_some h

/-! ### Lemmas about the parents-closed invariant -/

theorem parentsClosedAux_cons {seen : List Oid} {e : Oid × CommitData}
    {l : List (Oid × CommitData)} :
    parentsClosedAux seen (e :: l) = true ↔
      (∀ p ∈ e.2.parent_ids, p ∈ seen) ∧ parentsClosedAux (e.1 :: seen) l = true := by
  rw [parentsClosedAux]
  simp [List.all_eq_true]

theorem parentsClosedAux_congr_seen {l : List (Oid × CommitData)} :
    ∀ {seen seen' : List Oid}, (∀ x, x ∈ seen ↔ x ∈ seen') →
      parentsClosedAux seen l = parentsClosedAux seen' l := by
  induction l with
  | nil => intro seen seen' _; rfl
  | cons e rest ih =>
    intro seen seen' hequiv
    have hd : ∀ p : Oid, decide (p ∈ seen) = decide (p ∈ seen') :=
      fun p => decide_eq_decide.mpr (hequiv p)
    have h1 : (e.2.parent_ids.all fun p => decide (p ∈ seen)) =
        (e.2.parent_ids.all fun p => decide (p ∈ seen')) := by
      induction e.2.parent_ids with
      | nil => rfl
      | cons q qs ihq => rw [List.all_cons, List.all_cons, hd q, ihq]
    have hequiv' : ∀ x : Oid, x ∈ e.1 :: seen ↔ x ∈ e.1 :: seen' := by
      intro x
      rw [List.mem_cons, List.mem_cons, hequiv x]
    rw [parentsClosedAux, parentsClosedAux, h1, ih hequiv']

theorem parentsClosedAux_append {l₁ l₂ : List (Oid × CommitData)} :
    ∀ {seen : List Oid},
      parentsClosedAux seen (l₁ ++ l₂) = true ↔
        (parentsClosedAux seen l₁ = true ∧
          parentsClosedAux (l₁.map Prod.fst ++ seen) l₂ = true) := by
  induction l₁ with
  | nil => intro seen; simp [parentsClosedAux]
  | cons e rest ih =>
    intro seen
    rw [List.cons_append, parentsClosedAux_cons, parentsClosedAux_cons, ih]
    have hequiv : ∀ x, x ∈ List.map Prod.fst rest ++ e.1 :: seen ↔
        x ∈ List.map Prod.fst (e :: rest) ++ seen := by
      intro x
      simp [List.mem_append, List.mem_cons]
      tauto
    rw [parentsClosedAux_congr_seen hequiv]
    tauto

theorem parents_mem_of_closed {l : List (Oid × CommitData)} :
    ∀ {seen : List Oid}, parentsClosedAux seen l = true →
      ∀ {k : Oid} {d : CommitData}, (k, d) ∈ l → ∀ {p : Oid}, p ∈ d.parent_ids →
        p ∈ seen ∨ p ∈ l.map Prod.fst := by
  induction l with
  | nil => intro seen _ k d h; simp at h
  | cons e rest ih =>
    intro seen hclosed k d hmem p hp
    rw [parentsClosedAux_cons] at hclosed
    rcases List.mem_cons.mp hmem with hmem | hmem
    · subst hmem
      exact Or.inl (hclosed.1 p hp)
    · rcases ih hclosed.2 hmem hp with h | h
      · rcases List.mem_cons.mp h with h | h
        · right
          rw [List.map_cons, h]
          exact List.mem_cons_self _ _
        · exact Or.inl h
      · right
        rw [List.map_cons]
        exact List.mem_cons_of_mem _ h

theorem pairwise_of_closed {l : List (Oid × CommitData)} :
    ∀ {seen : List Oid}, parentsClosedAux seen l = true →
      (∀ e ∈ l, e.1 ∉ seen) → (l.map Prod.fst).Nodup →
      l.Pairwise (fun a b => b.1 ∉ a.2.parent_ids) ∧ ∀ e ∈ l, e.1 ∉ e.2.parent_ids := by
  induction l with
  | nil => intro seen _ _ _; exact ⟨List.Pairwise.nil, by simp⟩
  | cons e rest ih =>
    intro seen hclosed hfresh hnd
    rw [parentsClosedAux_cons] at hclosed
    simp only [List.map_cons, List.nodup_cons] at hnd
    have hfresh' : ∀ x ∈ rest, x.1 ∉ e.1 :: seen := by
      intro x hx
      rw [List.mem_cons]
      push_neg
      constructor
      · intro heq
        exact hnd.1 (heq ▸ List.mem_map.mpr ⟨x, hx, rfl⟩)
      · exact hfresh x (List.mem_cons_of_mem _ hx)
    obtain ⟨hpw, hirr⟩ := ih hclosed.2 hfresh' hnd.2
    refine ⟨List.Pairwise.cons ?_ hpw, ?_⟩
    · intro b hb hmem
      have : b.1 ∈ seen := hclosed.1 b.1 hmem
      exact hfresh' b hb (List.mem_cons_of_mem _ this)
    · intro x hx
      rcases List.mem_cons.mp hx with hx | hx
      · rw [hx]
        intro hmem
        exact hfresh e (List.mem_cons_self _ _) (hclosed.1 e.1 hmem)
      · exact hirr x hx

/-! ### Lemmas about content-addressed commit creation -/

theorem createCommit_ext (s : Store) (d : CommitData) : s.Ext (s.createCommit d).1 := by
  rw [Store.createCommit]
  split
  · exact Store.Ext.rfl s
  · exact ⟨[(s.freshOid, d)], rfl⟩

theorem createCommit_find {s : Store} (hwf : s.WF) (d : CommitData) :
    (s.createCommit d).1.findCommit (s.createCommit d).2 = some d := by
  rw [Store.createCommit]
  split
  · rename_i id hlook
    exact findCommitAux_of_mem_nodup hwf.1 (lookupByDataAux_eq_some_mem hlook)
  · rw [Store.findCommit]
    rw [findCommitAux_append_right (findCommitAux_eq_none_of_not_mem (freshOid_not_mem s))]
    rw [findCommitAux]
    simp

theorem createCommit_wf {s : Store} (hwf : s.WF) {d : CommitData}
    (hp : ∀ p ∈ d.parent_ids, p ∈ s.oids) : (s.createCommit d).1.WF := by
  rw [Store.createCommit]
  split
  · exact hwf
  · rename_i hlook
    obtain ⟨hnd1, hnd2, hclosed⟩ := hwf
    refine ⟨?_, ?_, ?_⟩
    · simp only [List.map_append, List.map_cons, List.map_nil]
      rw [List.nodup_append]
      refine ⟨hnd1, List.nodup_singleton _, ?_⟩
      intro x hx
      simp only [List.mem_singleton]
      intro heq
      exact freshOid_not_mem s (heq ▸ hx)
    · simp only [List.map_append, List.map_cons, List.map_nil]
      rw [List.nodup_append]
      refine ⟨hnd2, List.nodup_singleton _, ?_⟩
      intro x hx
      simp only [List.mem_singleton]
      intro heq
      rcases List.mem_map.mp hx with ⟨e, he, hsnd⟩
      exact lookupByDataAux_eq_none hlook e he (by rw [hsnd, heq])
    · rw [parentsClosedAux_append]
      refine ⟨hclosed, ?_⟩
      rw [parentsClosedAux_cons]
      refine ⟨?_, rfl⟩
      intro p hpmem
      rw [List.mem_append]
      exact Or.inl (hp p hpmem)

theorem createCommit_result_ne {s : Store} (hwf : s.WF) {oldId : Oid} {dOld : CommitData}
    (hold : s.findCommit oldId = some dOld) {d : CommitData} (hne : d ≠ dOld) :
    (s.createCommit d).2 ≠ oldId := by
  rw [Store.createCommit]
  split
  · rename_i id hlook
    intro heq
    have heq' : id = oldId := heq
    have h1 : (oldId, d) ∈ s.commits := heq' ▸ lookupByDataAux_eq_some_mem hlook
    have h2 : (oldId, dOld) ∈ s.commits := findCommitAux_eq_some_mem hold
    exact hne (eq_of_mem_fst_nodup hwf.1 h1 h2)
  · intro heq
    have heq' : s.freshOid = oldId := heq
    exact freshOid_not_mem s (heq' ▸ mem_oids_of_findCommit_eq_some hold)

theorem createCommit_mem_oids {s : Store} (hwf : s.WF) (d : CommitData) :
    (s.createCommit d).2 ∈ (s.createCommit d).1.oids :=
  mem_oids_of_findCommit_eq_some (createCommit_find hwf d)

/-! ### Generic helpers -/

theorem isSome_exists_findCommit {s : Store} {oid : Oid} (h : oid ∈ s.oids) :
    ∃ d, s.findCommit oid = some d := by
  have := findCommit_isSome_of_mem h
  exact Option.isSome_iff_exists.mp this

theorem mem_oids_of_isSome {s : Store} {oid : Oid} (h : (s.findCommit oid).isSome) :
    oid ∈ s.oids := by
  obtain ⟨d, hd⟩ := Option.isSome_iff_exists.mp h
  exact mem_oids_of_findCommit_eq_some hd

theorem Store.Ext.isSome_findCommit {s s' : Store} (hext : s.Ext s') {oid : Oid}
    (h : (s.findCommit oid).isSome) : (s'.findCommit oid).isSome := by
  obtain ⟨d, hd⟩ := Option.isSome_iff_exists.mp h
  rw [hext.findCommit_eq hd]
  rfl

theorem map_congr_mem {α β : Type _} {l : List α} {f g : α → β} (h : ∀ a ∈ l, f a = g a) :
    l.map f = l.map g := by
  induction l with
  | nil => rfl
  | cons a rest ih =>
    rw [List.map_cons, List.map_cons, h a (List.mem_cons_self _ _),
      ih (fun x hx => h x (List.mem_cons_of_mem _ hx))]

theorem any_congr_mem {α : Type _} {l : List α} {f g : α → Bool} (h : ∀ a ∈ l, f a = g a) :
    l.any f = l.any g := by
  induction l with
  | nil => rfl
  | cons a rest ih =>
    rw [List.any_cons, List.any_cons, h a (List.mem_cons_self _ _),
      ih (fun x hx => h x (List.mem_cons_of_mem _ hx))]

theorem map_eq_self_mem {α : Type _} {l : List α} {f : α → α} (h : l.map f = l) :
    ∀ x ∈ l, f x = x := by
  induction l with
  | nil => simp
  | cons a rest ih =>
    rw [List.map_cons] at h
    injection h with h1 h2
    intro x hx
    rcases List.mem_cons.mp hx with hx | hx
    · rw [hx]
      exact h1
    · exact ih h2 x hx

theorem Msg.eq_utf8_of_decode {m : Msg} {str : String} (h : m.decode = some str) :
    m = .utf8 str := by
  cases m with
  | utf8 s2 =>
    rw [Msg.decode] at h
    cases h
    rfl
  | binary b => cases h

/-! ### Lemmas about the discovery walk -/

theorem discover_old_commits_eq (s : Store) (resolvedRefs : List Reference)
    (editedCommitOid : Oid) :
    discover_old_commits s resolvedRefs editedCommitOid =
      (s.commits.filter (fun e =>
        decide (e.1 ∈ s.reachable (resolvedRefs.map Reference.target)) &&
          !decide (e.1 ∈ s.reachable [editedCommitOid]))).map Prod.fst := rfl

theorem mem_oids_of_mem_walked {s : Store} {resolvedRefs : List Reference} {n : Oid} {c : Oid}
    (h : c ∈ discover_old_commits s resolvedRefs n) : c ∈ s.oids := by
  rw [discover_old_commits_eq] at h
  rcases List.mem_map.mp h with ⟨e, he, hfst⟩
  exact hfst ▸ List.mem_map.mpr ⟨e, List.mem_of_mem_filter he, rfl⟩

theorem walked_nodup {s : Store} (hwf : s.WF) (resolvedRefs : List Reference) (n : Oid) :
    (discover_old_commits s resolvedRefs n).Nodup := by
  rw [discover_old_commits_eq]
  exact ((List.filter_sublist _).map Prod.fst).nodup hwf.1

theorem walked_pairwise {s : Store} (hwf : s.WF) (resolvedRefs : List Reference) (n : Oid) :
    (discover_old_commits s resolvedRefs n).Pairwise
      (fun a b => ∀ d, s.findCommit a = some d → b ∉ d.parent_ids) := by
  rw [discover_old_commits_eq]
  rw [List.pairwise_map]
  have hbase := (pairwise_of_closed hwf.2.2 (by simp) hwf.1).1
  have hfilter : (s.commits.filter (fun e =>
      decide (e.1 ∈ s.reachable (resolvedRefs.map Reference.target)) &&
        !decide (e.1 ∈ s.reachable [n]))).Pairwise (fun a b => b.1 ∉ a.2.parent_ids) :=
    hbase.sublist (List.filter_sublist _)
  apply hfilter.imp_of_mem
  intro a b ha _ hrel d hfind
  have hmem : (a.1, a.2) ∈ s.commits := List.mem_of_mem_filter ha
  have : s.findCommit a.1 = some a.2 := findCommitAux_of_mem_nodup hwf.1 hmem
  rw [hfind] at this
  cases this
  exact hrel

theorem walked_irrefl {s : Store} (hwf : s.WF) (resolvedRefs : List Reference) (n : Oid) :
    ∀ a ∈ discover_old_commits s resolvedRefs n,
      ∀ d, s.findCommit a = some d → a ∉ d.parent_ids := by
  intro a ha d hfind
  rw [discover_old_commits_eq] at ha
  rcases List.mem_map.mp ha with ⟨e, he, hfst⟩
  have hmem : e ∈ s.commits := List.mem_of_mem_filter he
  have hirr := (pairwise_of_closed hwf.2.2 (by simp) hwf.1).2 e hmem
  have hfe : s.findCommit e.1 = some e.2 := findCommitAux_of_mem_nodup hwf.1 hmem
  rw [← hfst] at hfind
  rw [hfind] at hfe
  cases hfe
  rw [← hfst]
  exact hirr

/-! ### Lemmas about remap-table lookup -/

theorem tableLookup_eq_some_mem {t : List (Oid × Oid)} {k v : Oid}
    (h : tableLookup t k = some v) : (k, v) ∈ t := by
  induction t with
  | nil => simp [tableLookup] at h
  | cons e rest ih =>
    rw [tableLookup] at h
    split at h
    · rename_i heq
      cases h
      rw [← heq]
      exact List.mem_cons_self _ _
    · exact List.mem_cons_of_mem _ (ih h)

theorem tableLookup_append_right {t₁ t₂ : List (Oid × Oid)} {k : Oid}
    (h : k ∉ t₁.map Prod.fst) : tableLookup (t₁ ++ t₂) k = tableLookup t₂ k := by
  induction t₁ with
  | nil => rfl
  | cons e rest ih =>
    simp only [List.map_cons, List.mem_cons] at h
    push_neg at h
    rw [List.cons_append, tableLookup, if_neg (fun hh => h.1 hh.symm)]
    exact ih h.2

theorem tableLookup_cons_ne {t : List (Oid × Oid)} {k k₀ v₀ : Oid} (h : k ≠ k₀) :
    tableLookup ((k₀, v₀) :: t) k = tableLookup t k := by
  rw [tableLookup, if_neg (fun hh => h hh.symm)]

theorem tableLookup_cons_isSome {t : List (Oid × Oid)} {k : Oid} (e : Oid × Oid)
    (h : (tableLookup t k).isSome) : (tableLookup (e :: t) k).isSome := by
  rw [tableLookup]
  split
  · rfl
  · exact h

/-! ### Lemmas about one step of the rebuild loop -/

theorem newParents_isSome {s : Store} {t : List (Oid × Oid)} (hwf : s.WF) {c : Oid}
    {d : CommitData} (hd : s.findCommit c = some d)
    (htab : ∀ e ∈ t, e.1 ≠ e.2 ∧ (s.findCommit e.1).isSome ∧ (s.findCommit e.2).isSome) :
    ∀ p ∈ d.parent_ids.map (fun p => (tableLookup t p).getD p), (s.findCommit p).isSome := by
  intro p hp
  rcases List.mem_map.mp hp with ⟨q, hq, hqeq⟩
  cases hcase : tableLookup t q with
  | some v =>
    rw [hcase] at hqeq
    simp only [Option.getD_some] at hqeq
    rw [← hqeq]
    exact (htab _ (tableLookup_eq_some_mem hcase)).2.2
  | none =>
    rw [hcase] at hqeq
    simp only [Option.getD_none] at hqeq
    rw [← hqeq]
    have hmemc : (c, d) ∈ s.commits := findCommitAux_eq_some_mem hd
    rcases parents_mem_of_closed hwf.2.2 hmemc hq with h | h
    · simp at h
    · exact findCommitAux_isSome_of_mem h

theorem newParents_find_missing_eq_none {s : Store} {t : List (Oid × Oid)} (hwf : s.WF)
    {c : Oid} {d : CommitData} (hd : s.findCommit c = some d)
    (htab : ∀ e ∈ t, e.1 ≠ e.2 ∧ (s.findCommit e.1).isSome ∧ (s.findCommit e.2).isSome) :
    (d.parent_ids.map (fun p => (tableLookup t p).getD p)).find?
      (fun p => (s.findCommit p).isNone) = none := by
  rw [List.find?_eq_none]
  intro x hx
  have h := newParents_isSome hwf hd htab x hx
  intro hcontra
  rw [Option.isNone_iff_eq_none] at hcontra
  rw [hcontra] at h
  cases h

theorem processOne_ok {s : Store} {t : List (Oid × Oid)} {c : Oid} {s' : Store}
    {t' : List (Oid × Oid)} (hwf : s.WF) (hc : c ∈ s.oids)
    (htab : ∀ e ∈ t, e.1 ≠ e.2 ∧ (s.findCommit e.1).isSome ∧ (s.findCommit e.2).isSome)
    (h : processOne s t c = (s', t', none)) :
    Store.Ext s s' ∧ s'.WF ∧
      (∀ e ∈ t', e.1 ≠ e.2 ∧ (s'.findCommit e.1).isSome ∧ (s'.findCommit e.2).isSome) ∧
      ((s' = s ∧ t' = t ∧
          ∀ dx, s.findCommit c = some dx → ∀ p ∈ dx.parent_ids, tableLookup t p = none) ∨
        ∃ n d dNew, s.findCommit c = some d ∧ t' = (c, n) :: t ∧ c ≠ n ∧
          s'.findCommit n = some dNew ∧
          dNew.message = d.message ∧ dNew.tree_id = d.tree_id ∧
          dNew.author = d.author ∧ dNew.committer = d.committer ∧
          dNew.parent_ids = d.parent_ids.map (fun p => (tableLookup t p).getD p) ∧
          (∃ p ∈ d.parent_ids, (tableLookup t p).isSome) ∧
          ∃ m2, d.message.decode = some m2) := by
  obtain ⟨d, hd⟩ := isSome_exists_findCommit hc
  simp only [processOne] at h
  split at h
  · rename_i hnone
    rw [hd] at hnone
    cases hnone
  · rename_i d₁ hsome
    rw [hd] at hsome
    injection hsome with hsome
    subst hsome
    split at h
    · rename_i hany
      split at h
      · rename_i p hfindp
        rw [newParents_find_missing_eq_none hwf hd htab] at hfindp
        cases hfindp
      · split at h
        · simp only [Prod.mk.injEq] at h
          exact absurd h.2.2 (by simp)
        · rename_i m hdec
          simp only [Prod.mk.injEq] at h
          obtain ⟨hs, ht, -⟩ := h
          set dN : CommitData := { parent_ids := d.parent_ids.map (fun p => (tableLookup t p).getD p), tree_id := d.tree_id, message := .utf8 m, author := d.author, committer := d.committer } with hdN
          obtain ⟨p₀, hp₀, hp₀some⟩ := List.any_eq_true.mp hany
          have hmsg : d.message = Msg.utf8 m := Msg.eq_utf8_of_decode hdec
          have hparents_ne :
              d.parent_ids.map (fun p => (tableLookup t p).getD p) ≠ d.parent_ids := by
            intro hEq
            have hfix := map_eq_self_mem hEq p₀ hp₀
            obtain ⟨v, hv⟩ := Option.isSome_iff_exists.mp hp₀some
            rw [hv] at hfix
            simp only [Option.getD_some] at hfix
            exact (htab _ (tableLookup_eq_some_mem hv)).1 hfix.symm
          have hne : dN ≠ d := by
            intro hEq
            exact hparents_ne (congrArg CommitData.parent_ids hEq)
          have hp_oids : ∀ p ∈ dN.parent_ids, p ∈ s.oids := by
            intro p hp
            exact mem_oids_of_isSome (newParents_isSome hwf hd htab p hp)
          have hext : Store.Ext s s' := hs ▸ createCommit_ext s dN
          have hwf' : s'.WF := hs ▸ createCommit_wf hwf hp_oids
          have hfindn : s'.findCommit (s.createCommit dN).2 = some dN := by
            rw [← hs]
            exact createCommit_find hwf dN
          have hcn : c ≠ (s.createCommit dN).2 :=
            fun hEq => createCommit_result_ne hwf hd hne hEq.symm
          refine ⟨hext, hwf', ?_, Or.inr ⟨(s.createCommit dN).2, d, dN, hd, ht.symm, hcn,
            hfindn, (by rw [hmsg]), rfl, rfl, rfl, rfl, ⟨p₀, hp₀, hp₀some⟩, m, hdec⟩⟩
          intro en hen
          rw [← ht] at hen
          rcases List.mem_cons.mp hen with hen | hen
          · rw [hen]
            refine ⟨hcn, hext.isSome_findCommit (by rw [hd]; rfl), ?_⟩
            rw [hfindn]
            rfl
          · obtain ⟨h1, h2, h3⟩ := htab en hen
            exact ⟨h1, hext.isSome_findCommit h2, hext.isSome_findCommit h3⟩
    · rename_i hany
      simp only [Prod.mk.injEq] at h
      obtain ⟨hs, ht, -⟩ := h
      subst hs
      subst ht
      refine ⟨Store.Ext.rfl _, hwf, htab, Or.inl ⟨rfl, rfl, ?_⟩⟩
      intro dx hdx p hp
      rw [hd] at hdx
      injection hdx with hdx
      subst hdx
      by_contra hcon
      apply hany
      rw [List.any_eq_true]
      exact ⟨p, hp, Option.ne_none_iff_isSome.mp hcon⟩

theorem processOne_error {s : Store} {t : List (Oid × Oid)} {c : Oid} {s' : Store}
    {t' : List (Oid × Oid)} {e : RegraphError} (hwf : s.WF) (hc : c ∈ s.oids)
    (htab : ∀ en ∈ t, en.1 ≠ en.2 ∧ (s.findCommit en.1).isSome ∧ (s.findCommit en.2).isSome)
    (h : processOne s t c = (s', t', some e)) :
    s' = s ∧ t' = t ∧ e = .commitWithInvalidUtf8Message c ∧
      ∃ d, s.findCommit c = some d ∧ d.message.decode = none := by
  obtain ⟨d, hd⟩ := isSome_exists_findCommit hc
  simp only [processOne] at h
  split at h
  · rename_i hnone
    rw [hd] at hnone
    cases hnone
  · rename_i d₁ hsome
    rw [hd] at hsome
    injection hsome with hsome
    subst hsome
    split at h
    · split at h
      · rename_i p hfindp
        rw [newParents_find_missing_eq_none hwf hd htab] at hfindp
        cases hfindp
      · split at h
        · rename_i hdec
          simp only [Prod.mk.injEq] at h
          obtain ⟨hs, ht, he⟩ := h
          exact ⟨hs.symm, ht.symm, (Option.some.inj he).symm, d, hd, hdec⟩
        · simp only [Prod.mk.injEq] at h
          exact absurd h.2.2 (by simp)
    · simp only [Prod.mk.injEq] at h
      exact absurd h.2.2 (by simp)

/-! ### The main invariant of the rebuild loop -/

theorem update_affected_spec (l : List Oid) :
    ∀ (s : Store) (t : List (Oid × Oid)) (s' : Store) (t' : List (Oid × Oid))
      (err : Option RegraphError),
      update_affected_commits s t l = (s', t', err) →
      s.WF → (∀ c ∈ l, c ∈ s.oids) →
      l.Pairwise (fun a b => ∀ d, s.findCommit a = some d → b ∉ d.parent_ids) →
      (∀ a ∈ l, ∀ d, s.findCommit a = some d → a ∉ d.parent_ids) →
      (∀ e ∈ t, e.1 ≠ e.2 ∧ (s.findCommit e.1).isSome ∧ (s.findCommit e.2).isSome) →
      Store.Ext s s' ∧ s'.WF ∧
        (∀ e ∈ t', e.1 ≠ e.2 ∧ (s'.findCommit e.1).isSome ∧ (s'.findCommit e.2).isSome) ∧
        (∃ added, t' = added ++ t ∧
          ∀ e ∈ added, e.1 ∈ l ∧ ∃ dOld dNew,
            s.findCommit e.1 = some dOld ∧ s'.findCommit e.2 = some dNew ∧
            dNew.message = dOld.message ∧ dNew.tree_id = dOld.tree_id ∧
            dNew.author = dOld.author ∧ dNew.committer = dOld.committer ∧
            dNew.parent_ids = dOld.parent_ids.map (fun p => (tableLookup t' p).getD p) ∧
            ∃ p ∈ dOld.parent_ids, (tableLookup t' p).isSome) ∧
        ∀ e0, err = some e0 → ∃ c ∈ l, e0 = .commitWithInvalidUtf8Message c ∧
          ∃ d, s.findCommit c = some d ∧ d.message.decode = none := by
  induction l with
  | nil =>
    intro s t s' t' err hrun hwf hmem hpw hirr htab
    rw [update_affected_commits] at hrun
    simp only [Prod.mk.injEq] at hrun
    obtain ⟨hs, ht, herr⟩ := hrun
    subst hs
    subst ht
    subst herr
    exact ⟨Store.Ext.rfl _, hwf, htab, ⟨[], rfl, by simp⟩, by simp⟩
  | cons c rest ih =>
    intro s t s' t' err hrun hwf hmem hpw hirr htab
    rw [update_affected_commits] at hrun
    split at hrun
    · -- the step succeeded, the loop continues
      rename_i s₁ t₁ heq
      obtain ⟨hext₁, hwf₁, htab₁, hcase⟩ :=
        processOne_ok hwf (hmem c (List.mem_cons_self _ _)) htab heq
      have hmem₁ : ∀ x ∈ rest, x ∈ s₁.oids :=
        fun x hx => hext₁.mem_oids (hmem x (List.mem_cons_of_mem _ hx))
      have hfind_eq : ∀ x ∈ rest, ∀ dx, s₁.findCommit x = some dx → s.findCommit x = some dx := by
        intro x hx dx hdx
        obtain ⟨d₀, hd₀⟩ := isSome_exists_findCommit (hmem x (List.mem_cons_of_mem _ hx))
        have hup := hext₁.findCommit_eq hd₀
        rw [hdx] at hup
        cases hup
        exact hd₀
      have hpw₁ : rest.Pairwise (fun a b => ∀ d, s₁.findCommit a = some d → b ∉ d.parent_ids) := by
        refine ((List.pairwise_cons.mp hpw).2).imp_of_mem ?_
        intro a b ha _ hrel dx hdx
        exact hrel dx (hfind_eq a ha dx hdx)
      have hirr₁ : ∀ a ∈ rest, ∀ dx, s₁.findCommit a = some dx → a ∉ dx.parent_ids := by
        intro a ha dx hdx
        exact hirr a (List.mem_cons_of_mem _ ha) dx (hfind_eq a ha dx hdx)
      obtain ⟨hext', hwf', htab', ⟨added', haddeq, haddprops⟩, herrchar⟩ :=
        ih s₁ t₁ s' t' err hrun hwf₁ hmem₁ hpw₁ hirr₁ htab₁
      refine ⟨hext₁.trans hext', hwf', htab', ?_, ?_⟩
      · rcases hcase with ⟨hs1, ht1, -⟩ |
          ⟨n, d, dN, hd, ht1, hcn, hfindn, hmsg, htree, hauth, hcomm, hpar, htrig, -⟩
        · subst hs1
          subst ht1
          refine ⟨added', haddeq, ?_⟩
          intro e he
          obtain ⟨hmemr, props⟩ := haddprops e he
          exact ⟨List.mem_cons_of_mem _ hmemr, props⟩
        · subst ht1
          have hstable : ∀ p ∈ d.parent_ids, tableLookup t' p = tableLookup t p := by
            intro p hp
            have hpne : p ≠ c := by
              intro hEq
              exact (hirr c (List.mem_cons_self _ _) d hd) (hEq ▸ hp)
            have hknot : p ∉ added'.map Prod.fst := by
              intro hpk
              rcases List.mem_map.mp hpk with ⟨e', he', hfst⟩
              have hmemr : e'.1 ∈ rest := (haddprops e' he').1
              exact ((List.pairwise_cons.mp hpw).1 e'.1 hmemr) d hd (hfst ▸ hp)
            rw [haddeq, tableLookup_append_right hknot, tableLookup_cons_ne hpne]
          refine ⟨added' ++ [(c, n)], ?_, ?_⟩
          · rw [haddeq, List.append_assoc]
            rfl
          · intro e he
            rcases List.mem_append.mp he with he | he
            · obtain ⟨hmemr, dOld, dNew, hdo, hdn, props⟩ := haddprops e he
              exact ⟨List.mem_cons_of_mem _ hmemr, dOld, dNew,
                hfind_eq e.1 hmemr dOld hdo, hdn, props⟩
            · have he' : e = (c, n) := by simpa using he
              subst he'
              refine ⟨List.mem_cons_self _ _, d, dN, hd, hext'.findCommit_eq hfindn,
                hmsg, htree, hauth, hcomm, ?_, ?_⟩
              · rw [hpar]
                apply map_congr_mem
                intro p hp
                rw [hstable p hp]
              · obtain ⟨p, hp, hpsome⟩ := htrig
                refine ⟨p, hp, ?_⟩
                rw [hstable p hp]
                exact hpsome
      · intro e0 he0
        obtain ⟨c', hc', he, dx, hdx, hdec⟩ := herrchar e0 he0
        exact ⟨c', List.mem_cons_of_mem _ hc', he, dx, hfind_eq c' hc' dx hdx, hdec⟩
    · -- the step failed, the loop stops
      rename_i s₁ t₁ e₂ heq
      obtain ⟨hs1, ht1, he, d, hd, hdec⟩ :=
        processOne_error hwf (hmem c (List.mem_cons_self _ _)) htab heq
      subst hs1
      subst ht1
      simp only [Prod.mk.injEq] at hrun
      obtain ⟨hs, ht, herr⟩ := hrun
      subst hs
      subst ht
      subst herr
      refine ⟨Store.Ext.rfl _, hwf, htab, ⟨[], rfl, by simp⟩, ?_⟩
      intro e0 he0
      cases he0
      exact ⟨c, List.mem_cons_self _ _, he, d, hd, hdec⟩

/-- A commit on the walk whose message is undecodable and that has at least
one parent already remapped forces the rebuild loop to stop with an error. -/
theorem update_affected_forces (l : List Oid) :
    ∀ (s : Store) (t : List (Oid × Oid)),
      s.WF → (∀ c ∈ l, c ∈ s.oids) →
      (∀ e ∈ t, e.1 ≠ e.2 ∧ (s.findCommit e.1).isSome ∧ (s.findCommit e.2).isSome) →
      (∃ c ∈ l, ∃ d, s.findCommit c = some d ∧ d.message.decode = none ∧
        ∃ p ∈ d.parent_ids, (tableLookup t p).isSome) →
      (update_affected_commits s t l).2.2.isSome := by
  induction l with
  | nil =>
    intro s t _ _ _ hbad
    simp at hbad
  | cons c rest ih =>
    intro s t hwf hmem htab hbad
    rw [update_affected_commits]
    split
    · rename_i s₁ t₁ heq
      obtain ⟨hext₁, hwf₁, htab₁, hcase⟩ :=
        processOne_ok hwf (hmem c (List.mem_cons_self _ _)) htab heq
      obtain ⟨c₀, hc₀, d₀, hd₀, hdec₀, p₀, hp₀, hp₀some⟩ := hbad
      rcases List.mem_cons.mp hc₀ with hc0eq | hc0mem
      · subst hc0eq
        exfalso
        rcases hcase with ⟨-, -, hnomap⟩ |
            ⟨n, d, dN, hd, -, -, -, -, -, -, -, -, -, m2, hm2⟩
        · rw [hnomap d₀ hd₀ p₀ hp₀] at hp₀some
          cases hp₀some
        · rw [hd₀] at hd
          injection hd with hd
          subst hd
          rw [hdec₀] at hm2
          cases hm2
      · apply ih s₁ t₁ hwf₁
          (fun x hx => hext₁.mem_oids (hmem x (List.mem_cons_of_mem _ hx))) htab₁
        refine ⟨c₀, hc0mem, d₀, hext₁.findCommit_eq hd₀, hdec₀, p₀, hp₀, ?_⟩
        rcases hcase with ⟨-, ht1, -⟩ | ⟨n, d, dN, -, ht1, -⟩
        · rw [ht1]
          exact hp₀some
        · rw [ht1]
          exact tableLookup_cons_isSome _ hp₀some
    · rfl

/-! ### Lemmas about the rewrite path -/

theorem bool_eq_false_of_not {b : Bool} (h : ¬ b = true) : b = false := by
  cases b
  · rfl
  · exact absurd rfl h

theorem affectedBy_sub (s : Store) :
    ∀ (l keys : List Oid) (c : Oid), c ∈ affectedBy s keys l → c ∈ l := by
  intro l
  induction l with
  | nil =>
    intro keys c h
    simp [affectedBy] at h
  | cons c₀ rest ih =>
    intro keys c h
    rw [affectedBy] at h
    split at h
    · exact List.mem_cons_of_mem _ (ih keys c h)
    · split at h
      · rcases List.mem_cons.mp h with h | h
        · rw [h]
          exact List.mem_cons_self _ _
        · exact List.mem_cons_of_mem _ (ih _ c h)
      · exact List.mem_cons_of_mem _ (ih keys c h)

theorem affectedBy_ext {s s' : Store} (hext : s.Ext s') :
    ∀ l : List Oid, (∀ c ∈ l, c ∈ s.oids) → ∀ keys : List Oid,
      affectedBy s' keys l = affectedBy s keys l := by
  intro l
  induction l with
  | nil =>
    intro _ keys
    rfl
  | cons c₀ rest ih =>
    intro hmem keys
    obtain ⟨d₀, hd₀⟩ := isSome_exists_findCommit (hmem c₀ (List.mem_cons_self _ _))
    have hd₀' := hext.findCommit_eq hd₀
    have ihr := ih (fun x hx => hmem x (List.mem_cons_of_mem _ hx))
    simp only [affectedBy, hd₀, hd₀']
    split
    · rw [ihr (c₀ :: keys)]
    · exact ihr keys

/-- A commit anywhere on the rewrite path whose message is undecodable
forces the rebuild loop to stop with an error, provided the key set used
to compute the path coincides with the keys of the remap table.  This
generalises `update_affected_forces` from direct children of the table's
keys to arbitrary depth. -/
theorem update_affected_forces_path (l : List Oid) :
    ∀ (s : Store) (t : List (Oid × Oid)) (keys : List Oid),
      s.WF → (∀ c ∈ l, c ∈ s.oids) →
      (∀ e ∈ t, e.1 ≠ e.2 ∧ (s.findCommit e.1).isSome ∧ (s.findCommit e.2).isSome) →
      (∀ p : Oid, p ∈ keys ↔ (tableLookup t p).isSome = true) →
      (∃ c ∈ affectedBy s keys l, ∃ d, s.findCommit c = some d ∧ d.message.decode = none) →
      (update_affected_commits s t l).2.2.isSome := by
  induction l with
  | nil =>
    intro s t keys _ _ _ _ hbad
    simp [affectedBy] at hbad
  | cons c₀ rest ih =>
    intro s t keys hwf hmem htab hkeys hbad
    rw [update_affected_commits]
    split
    · rename_i s₁ t₁ heq
      obtain ⟨hext₁, hwf₁, htab₁, hcase⟩ :=
        processOne_ok hwf (hmem c₀ (List.mem_cons_self _ _)) htab heq
      obtain ⟨d₀, hd₀⟩ := isSome_exists_findCommit (hmem c₀ (List.mem_cons_self _ _))
      have hmemrest : ∀ x ∈ rest, x ∈ s.oids :=
        fun x hx => hmem x (List.mem_cons_of_mem _ hx)
      have hmem₁ : ∀ x ∈ rest, x ∈ s₁.oids := fun x hx => hext₁.mem_oids (hmemrest x hx)
      have hanyEq : (d₀.parent_ids.any fun p => decide (p ∈ keys)) =
          (d₀.parent_ids.any fun p => (tableLookup t p).isSome) := by
        apply any_congr_mem
        intro p _
        by_cases hp : (tableLookup t p).isSome = true
        · rw [hp, decide_eq_true ((hkeys p).mpr hp)]
        · rw [bool_eq_false_of_not hp, decide_eq_false (fun hm => hp ((hkeys p).mp hm))]
      simp only [affectedBy, hd₀] at hbad
      by_cases hany : (d₀.parent_ids.any fun p => decide (p ∈ keys)) = true
      · rw [if_pos hany] at hbad
        rcases hcase with ⟨-, -, hnomap⟩ |
            ⟨n, d, dN, hd, ht1, -, -, -, -, -, -, -, -, m2, hm2⟩
        · exfalso
          obtain ⟨p, hp, hpl⟩ := List.any_eq_true.mp (hanyEq ▸ hany)
          rw [hnomap d₀ hd₀ p hp] at hpl
          cases hpl
        · rw [hd₀] at hd
          injection hd with hd
          subst hd
          obtain ⟨c, hcmem, dbad, hfbad, hdecbad⟩ := hbad
          rcases List.mem_cons.mp hcmem with hceq | hcmem2
          · exfalso
            subst hceq
            rw [hd₀] at hfbad
            injection hfbad with hfbad
            rw [← hfbad] at hdecbad
            rw [hdecbad] at hm2
            cases hm2
          · have hkeys₁ : ∀ p : Oid, p ∈ c₀ :: keys ↔ (tableLookup t₁ p).isSome = true := by
              intro p
              rw [ht1]
              by_cases hpc : p = c₀
              · subst hpc
                simp [tableLookup]
              · rw [tableLookup_cons_ne hpc]
                simp only [List.mem_cons]
                constructor
                · intro hor
                  rcases hor with h | h
                  · exact absurd h hpc
                  · exact (hkeys p).mp h
                · intro hs
                  exact Or.inr ((hkeys p).mpr hs)
            have hbad₁ : ∃ x ∈ affectedBy s₁ (c₀ :: keys) rest,
                ∃ dx, s₁.findCommit x = some dx ∧ dx.message.decode = none := by
              refine ⟨c, ?_, dbad, hext₁.findCommit_eq hfbad, hdecbad⟩
              rw [affectedBy_ext hext₁ rest hmemrest (c₀ :: keys)]
              exact hcmem2
            exact ih s₁ t₁ (c₀ :: keys) hwf₁ hmem₁ htab₁ hkeys₁ hbad₁
      · rw [if_neg hany] at hbad
        rcases hcase with ⟨hs1, ht1, -⟩ |
            ⟨n, d, dN, hd, -, -, -, -, -, -, -, -, htrig, -, -⟩
        · rw [hs1, ht1]
          exact ih s t keys hwf hmemrest htab hkeys hbad
        · exfalso
          rw [hd₀] at hd
          injection hd with hd
          subst hd
          obtain ⟨p, hp, hpsome⟩ := htrig
          apply hany
          rw [hanyEq, List.any_eq_true]
          exact ⟨p, hp, hpsome⟩
    · rfl

/-! ### Lemmas about reference updates -/

theorem find?_cons_pos {α : Type _} (p : α → Bool) (a : α) (l : List α) (h : p a = true) :
    (a :: l).find? p = some a := by
  simp [List.find?, h]

theorem find?_cons_neg {α : Type _} (p : α → Bool) (a : α) (l : List α) (h : p a = false) :
    (a :: l).find? p = l.find? p := by
  simp [List.find?, h]

theorem find?_name_isSome_of_mem {refs : List Reference} {r : Reference} (h : r ∈ refs) :
    (refs.find? (fun x => x.name == r.name)).isSome := by
  induction refs with
  | nil => simp at h
  | cons x rest ih =>
    by_cases hx : (x.name == r.name) = true
    · rw [find?_cons_pos (fun x => x.name == r.name) x rest hx]
      rfl
    · rw [find?_cons_neg (fun x => x.name == r.name) x rest (bool_eq_false_of_not hx)]
      rcases List.mem_cons.mp h with h | h
      · rw [h] at hx
        simp at hx
      · exact ih h

theorem find?_name_of_mem_nodup {refs : List Reference}
    (hnd : (refs.map Reference.name).Nodup) {r : Reference} (h : r ∈ refs) :
    refs.find? (fun x => x.name == r.name) = some r := by
  induction refs with
  | nil => simp at h
  | cons x rest ih =>
    simp only [List.map_cons, List.nodup_cons] at hnd
    rcases List.mem_cons.mp h with h | h
    · subst h
      rw [find?_cons_pos (fun x => x.name == r.name) r rest (by simp)]
    · have hne : (x.name == r.name) = false := by
        apply bool_eq_false_of_not
        simp only [beq_iff_eq]
        intro heq
        exact hnd.1 (heq ▸ List.mem_map.mpr ⟨r, h, rfl⟩)
      rw [find?_cons_neg (fun x => x.name == r.name) x rest hne]
      exact ih hnd.2 h

theorem refTarget_of_mem_nodup {repo : Repo} (hnd : (repo.refs.map Reference.name).Nodup)
    {r : Reference} (h : r ∈ repo.refs) : repo.refTarget r.name = some r.target := by
  rw [Repo.refTarget, find?_name_of_mem_nodup hnd h]
  rfl

theorem find?_map_set_self {name : String} {newT : Oid} {refs : List Reference} :
    (refs.find? (fun x => x.name == name)).isSome →
    ((refs.map (fun r => if r.name = name then { r with target := newT } else r)).find?
      (fun x => x.name == name)).map Reference.target = some newT := by
  induction refs with
  | nil => intro hex; simp [List.find?] at hex
  | cons x rest ih =>
    intro hex
    rw [List.map_cons]
    by_cases hx : x.name = name
    · rw [find?_cons_pos (fun y : Reference => y.name == name) _ _ (by rw [if_pos hx]; simp [hx])]
      rw [if_pos hx]
      rfl
    · rw [find?_cons_neg (fun y : Reference => y.name == name) _ _ (by rw [if_neg hx]; simp [hx])]
      apply ih
      rw [find?_cons_neg (fun y : Reference => y.name == name) _ _ (by simp [hx])] at hex
      exact hex

theorem find?_map_set_other {name other : String} (hne : other ≠ name) {newT : Oid}
    {refs : List Reference} :
    ((refs.map (fun r => if r.name = name then { r with target := newT } else r)).find?
      (fun x => x.name == other)).map Reference.target =
      (refs.find? (fun x => x.name == other)).map Reference.target := by
  induction refs with
  | nil => rfl
  | cons x rest ih =>
    rw [List.map_cons]
    by_cases hx : x.name = other
    · have hxn : ¬ x.name = name := fun hh => hne (hx ▸ hh)
      rw [if_neg hxn]
      rw [find?_cons_pos (fun y : Reference => y.name == other) x _ (by simp [hx]),
        find?_cons_pos (fun y : Reference => y.name == other) x rest (by simp [hx])]
    · have hb : ((if x.name = name then { x with target := newT } else x).name == other)
        = false := by
        apply bool_eq_false_of_not
        split
        · simp only [beq_iff_eq]
          exact hx
        · simp only [beq_iff_eq]
          exact hx
      rw [find?_cons_neg (fun y : Reference => y.name == other) _ _ hb,
        find?_cons_neg (fun y : Reference => y.name == other) x rest (by simp [hx])]
      exact ih

theorem setTarget_refTarget_self {repo : Repo} {name : String} {newT : Oid} {msg : String}
    (hex : (repo.refs.find? (fun x => x.name == name)).isSome) :
    (repo.setTarget name newT msg).refTarget name = some newT :=
  find?_map_set_self hex

theorem setTarget_refTarget_other {repo : Repo} {name other : String} (hne : other ≠ name)
    {newT : Oid} {msg : String} :
    (repo.setTarget name newT msg).refTarget other = repo.refTarget other :=
  find?_map_set_other hne

theorem setTarget_reflog_self {repo : Repo} {name : String} {newT : Oid} {msg : String} :
    ((repo.setTarget name newT msg).reflog.filter (fun en => en.refName == name)).length =
      (repo.reflog.filter (fun en => en.refName == name)).length + 1 := by
  rw [Repo.setTarget]
  simp [List.filter_append]

theorem setTarget_reflog_other {repo : Repo} {name other : String} (hne : other ≠ name)
    {newT : Oid} {msg : String} :
    ((repo.setTarget name newT msg).reflog.filter (fun en => en.refName == other)).length =
      (repo.reflog.filter (fun en => en.refName == other)).length := by
  rw [Repo.setTarget]
  simp only []
  rw [List.filter_append]
  have : (List.filter (fun en => en.refName == other)
      [({ refName := name, message := msg, newTarget := newT } : ReflogEntry)]) = [] := by
    have hb : (name == other) = false := by
      apply bool_eq_false_of_not
      simp only [beq_iff_eq]
      exact fun hh => hne hh.symm
    simp [List.filter, hb]
  rw [this]
  simp

theorem setTarget_names (repo : Repo) (name : String) (newT : Oid) (msg : String) :
    (repo.setTarget name newT msg).refs.map Reference.name = repo.refs.map Reference.name := by
  rw [Repo.setTarget]
  simp only [List.map_map]
  apply map_congr_mem
  intro r _
  simp only [Function.comp]
  split
  · rfl
  · rfl

theorem setTarget_mem_refs {repo : Repo} {r : Reference} (h : r ∈ repo.refs) {name : String}
    (hne : r.name ≠ name) (newT : Oid) (msg : String) :
    r ∈ (repo.setTarget name newT msg).refs := by
  rw [Repo.setTarget]
  refine List.mem_map.mpr ⟨r, h, ?_⟩
  rw [if_neg hne]

theorem setTarget_store (repo : Repo) (name : String) (newT : Oid) (msg : String) :
    (repo.setTarget name newT msg).store = repo.store := rfl

theorem updateRefsGo_store (resolved : List Reference) :
    ∀ (repo : Repo) (msg : String) (t : List (Oid × Oid)),
      (updateRefsGo msg t repo resolved).store = repo.store := by
  induction resolved with
  | nil => intro repo msg t; rfl
  | cons r rest ih =>
    intro repo msg t
    rw [updateRefsGo]
    split
    · rw [ih]
      rfl
    · exact ih repo msg t

theorem updateRefsGo_names (resolved : List Reference) :
    ∀ (repo : Repo) (msg : String) (t : List (Oid × Oid)),
      (updateRefsGo msg t repo resolved).refs.map Reference.name =
        repo.refs.map Reference.name := by
  induction resolved with
  | nil => intro repo msg t; rfl
  | cons r rest ih =>
    intro repo msg t
    rw [updateRefsGo]
    split
    · rw [ih, setTarget_names]
    · exact ih repo msg t

theorem updateRefsGo_untouched (resolved : List Reference) :
    ∀ (repo : Repo) (msg : String) (t : List (Oid × Oid)) (name : String),
      (∀ r ∈ resolved, r.name ≠ name) →
      (updateRefsGo msg t repo resolved).refTarget name = repo.refTarget name ∧
      ((updateRefsGo msg t repo resolved).reflog.filter
        (fun en => en.refName == name)).length =
        (repo.reflog.filter (fun en => en.refName == name)).length := by
  induction resolved with
  | nil =>
    intro repo msg t name _
    exact ⟨rfl, rfl⟩
  | cons r rest ih =>
    intro repo msg t name hnames
    rw [updateRefsGo]
    have hrne : r.name ≠ name := hnames r (List.mem_cons_self _ _)
    have hrest : ∀ x ∈ rest, x.name ≠ name :=
      fun x hx => hnames x (List.mem_cons_of_mem _ hx)
    split
    · obtain ⟨h1, h2⟩ := ih (repo.setTarget r.name _ msg) msg t name hrest
      refine ⟨?_, ?_⟩
      · rw [h1, setTarget_refTarget_other (fun hh => hrne hh.symm)]
      · rw [h2, setTarget_reflog_other (fun hh => hrne hh.symm)]
    · exact ih repo msg t name hrest

theorem updateRefsGo_spec (resolved : List Reference) :
    ∀ (repo : Repo) (msg : String) (t : List (Oid × Oid)),
      (∀ r ∈ resolved, r ∈ repo.refs) →
      (repo.refs.map Reference.name).Nodup →
      (resolved.map Reference.name).Nodup →
      ∀ r ∈ resolved,
        (∀ n, tableLookup t r.target = some n →
          (updateRefsGo msg t repo resolved).refTarget r.name = some n ∧
          ((updateRefsGo msg t repo resolved).reflog.filter
            (fun en => en.refName == r.name)).length =
            (repo.reflog.filter (fun en => en.refName == r.name)).length + 1) ∧
        (tableLookup t r.target = none →
          (updateRefsGo msg t repo resolved).refTarget r.name = some r.target ∧
          ((updateRefsGo msg t repo resolved).reflog.filter
            (fun en => en.refName == r.name)).length =
            (repo.reflog.filter (fun en => en.refName == r.name)).length) := by
  induction resolved with
  | nil =>
    intro repo msg t _ _ _ r hr
    simp at hr
  | cons r₀ rest ih =>
    intro repo msg t hres hnd hrnd r hr
    simp only [List.map_cons, List.nodup_cons] at hrnd
    have hrestne : ∀ x ∈ rest, x.name ≠ r₀.name := by
      intro x hx heq
      exact hrnd.1 (heq ▸ List.mem_map.mpr ⟨x, hx, rfl⟩)
    rcases List.mem_cons.mp hr with hreq | hrmem
    · subst hreq
      rw [updateRefsGo]
      constructor
      · intro n hlook
        rw [hlook]
        obtain ⟨h1, h2⟩ := updateRefsGo_untouched rest
          (repo.setTarget r.name n msg) msg t r.name hrestne
        refine ⟨?_, ?_⟩
        · rw [h1, setTarget_refTarget_self
            (find?_name_isSome_of_mem (hres r (List.mem_cons_self _ _)))]
        · rw [h2, setTarget_reflog_self]
      · intro hlook
        rw [hlook]
        obtain ⟨h1, h2⟩ := updateRefsGo_untouched rest repo msg t r.name hrestne
        refine ⟨?_, ?_⟩
        · rw [h1, refTarget_of_mem_nodup hnd (hres r (List.mem_cons_self _ _))]
        · rw [h2]
    · rw [updateRefsGo]
      have hrne : r.name ≠ r₀.name := hrestne r hrmem
      split
      · rename_i n₀ hlook₀
        have hres₁ : ∀ x ∈ rest, x ∈ (repo.setTarget r₀.name n₀ msg).refs := by
          intro x hx
          exact setTarget_mem_refs (hres x (List.mem_cons_of_mem _ hx))
            (hrestne x hx) _ _
        have hnd₁ : ((repo.setTarget r₀.name n₀ msg).refs.map Reference.name).Nodup := by
          rw [setTarget_names]
          exact hnd
        have := ih (repo.setTarget r₀.name n₀ msg) msg t hres₁ hnd₁ hrnd.2 r hrmem
        constructor
        · intro n hlook
          obtain ⟨h1, h2⟩ := this.1 n hlook
          refine ⟨h1, ?_⟩
          rw [h2, setTarget_reflog_other hrne]
        · intro hlook
          obtain ⟨h1, h2⟩ := this.2 hlook
          refine ⟨h1, ?_⟩
          rw [h2, setTarget_reflog_other hrne]
      · exact ih repo msg t (fun x hx => hres x (List.mem_cons_of_mem _ hx)) hnd hrnd.2 r hrmem

theorem update_refs_store (repo : Repo) (resolvedRefs : List Reference)
    (oldEditedOid newEditedOid : Oid) (t : List (Oid × Oid)) :
    (update_refs repo resolvedRefs oldEditedOid newEditedOid t).store = repo.store :=
  updateRefsGo_store resolvedRefs repo _ t

/-! ### Lemmas about the edited-commit creation and about `regraph` -/

theorem create_edited_commit_ok {repo : Repo} {target : Oid × CommitData} {edit : CommitEdit}
    (hval : ValidInputs repo target edit) {s1 : Store} {n : Oid}
    (h : create_edited_commit repo.store edit target.1 target.2 = .ok (s1, n)) :
    repo.store.Ext s1 ∧ s1.WF ∧ (s1.findCommit n).isSome := by
  obtain ⟨hwf, hfind, hpararg⟩ := hval
  rw [create_edited_commit] at h
  split at h
  · cases h
  · rename_i origMsg hdec
    injection h with h
    have hpar : ∀ p ∈ (edit.parents.getD target.2.parent_ids), p ∈ repo.store.oids := by
      cases hpe : edit.parents with
      | some ps =>
        intro p hp
        apply hpararg
        rw [hpe]
        exact hp
      | none =>
        intro p hp
        simp only [Option.getD_none] at hp
        have hmemc : (target.1, target.2) ∈ repo.store.commits := findCommitAux_eq_some_mem hfind
        rcases parents_mem_of_closed hwf.2.2 hmemc hp with hcontra | hok
        · simp at hcontra
        · exact hok
    set D : CommitData := { parent_ids := edit.parents.getD target.2.parent_ids, tree_id := edit.tree.getD target.2.tree_id, message := .utf8 (edit.message.getD origMsg), author := edit.author.getD target.2.author, committer := edit.committer.getD target.2.committer } with hD
    have hpar' : ∀ p ∈ D.parent_ids, p ∈ repo.store.oids := hpar
    refine ⟨?_, ?_, ?_⟩
    · have hx := createCommit_ext repo.store D
      rw [h] at hx
      exact hx
    · have hx := createCommit_wf hwf hpar'
      rw [h] at hx
      exact hx
    · have hx := createCommit_find hwf D
      rw [h] at hx
      rw [hx]
      rfl

theorem regraph_eq_of_create_error {repo : Repo} {refsToUpdate : RefArg}
    {target : Oid × CommitData} {edit : CommitEdit} {e : RegraphError}
    (hbad : create_edited_commit repo.store edit target.1 target.2 = .error e) :
    regraph repo refsToUpdate target edit =
      { repo := repo, result := some e, table := [], walked := [], trace := [.applyEdit] } := by
  rw [regraph, hbad]

theorem regraph_eq_of_nochange {repo : Repo} {refsToUpdate : RefArg}
    {target : Oid × CommitData} {edit : CommitEdit} {s1 : Store} {n : Oid}
    (hok : create_edited_commit repo.store edit target.1 target.2 = .ok (s1, n))
    (heq : n = target.1) :
    regraph repo refsToUpdate target edit =
      { repo := { repo with store := s1 }, result := some .noChange, table := [],
        walked := [], trace := [.applyEdit] } := by
  rw [regraph, hok]
  simp [heq]

theorem regraph_eq_of_ok {repo : Repo} {refsToUpdate : RefArg} {target : Oid × CommitData}
    {edit : CommitEdit} {s1 : Store} {n : Oid}
    (hok : create_edited_commit repo.store edit target.1 target.2 = .ok (s1, n))
    (hne : n ≠ target.1) {s2 : Store} {t2 : List (Oid × Oid)} {err : Option RegraphError}
    (hupd : update_affected_commits s1 [(target.1, n)]
      (discover_old_commits s1 (refsToUpdate.resolve { repo with store := s1 }) n) =
        (s2, t2, err)) :
    regraph repo refsToUpdate target edit =
      match err with
      | some e =>
        { repo := { repo with store := s2 }, result := some e, table := t2,
          walked := discover_old_commits s1 (refsToUpdate.resolve { repo with store := s1 }) n,
          trace := [.applyEdit, .resolveRefs, .walkCommits] }
      | none =>
        { repo := update_refs { repo with store := s2 }
            (refsToUpdate.resolve { repo with store := s1 }) target.1 n t2,
          result := none, table := t2,
          walked := discover_old_commits s1 (refsToUpdate.resolve { repo with store := s1 }) n,
          trace := [.applyEdit, .resolveRefs, .walkCommits] ++
            (refsToUpdate.resolve { repo with store := s1 }).filterMap (fun r =>
              if (tableLookup t2 r.target).isSome then some (.setRefTarget r.name)
              else none) } := by
  rw [regraph, hok]
  simp only [if_neg hne, hupd]
  cases err with
  | some e => rfl
  | none => rfl

theorem regraph_fields_some {repo : Repo} {refsToUpdate : RefArg} {target : Oid × CommitData}
    {edit : CommitEdit} {s1 : Store} {n : Oid}
    (hok : create_edited_commit repo.store edit target.1 target.2 = .ok (s1, n))
    (hne : n ≠ target.1) {s2 : Store} {t2 : List (Oid × Oid)} {e : RegraphError}
    (hupd : update_affected_commits s1 [(target.1, n)]
      (discover_old_commits s1 (refsToUpdate.resolve { repo with store := s1 }) n) =
        (s2, t2, some e)) :
    (regraph repo refsToUpdate target edit).result = some e ∧
    (regraph repo refsToUpdate target edit).table = t2 ∧
    (regraph repo refsToUpdate target edit).walked =
      discover_old_commits s1 (refsToUpdate.resolve { repo with store := s1 }) n ∧
    (regraph repo refsToUpdate target edit).repo.store = s2 ∧
    (regraph repo refsToUpdate target edit).repo.refs = repo.refs ∧
    (regraph repo refsToUpdate target edit).repo.reflog = repo.reflog := by
  rw [regraph_eq_of_ok hok hne hupd]
  exact ⟨rfl, rfl, rfl, rfl, rfl, rfl⟩

theorem regraph_fields_none {repo : Repo} {refsToUpdate : RefArg} {target : Oid × CommitData}
    {edit : CommitEdit} {s1 : Store} {n : Oid}
    (hok : create_edited_commit repo.store edit target.1 target.2 = .ok (s1, n))
    (hne : n ≠ target.1) {s2 : Store} {t2 : List (Oid × Oid)}
    (hupd : update_affected_commits s1 [(target.1, n)]
      (discover_old_commits s1 (refsToUpdate.resolve { repo with store := s1 }) n) =
        (s2, t2, none)) :
    (regraph repo refsToUpdate target edit).result = none ∧
    (regraph repo refsToUpdate target edit).table = t2 ∧
    (regraph repo refsToUpdate target edit).walked =
      discover_old_commits s1 (refsToUpdate.resolve { repo with store := s1 }) n ∧
    (regraph repo refsToUpdate target edit).repo.store = s2 := by
  rw [regraph_eq_of_ok hok hne hupd]
  refine ⟨rfl, rfl, rfl, ?_⟩
  exact update_refs_store _ _ _ _ _

/-- The rebuild loop of a `regraph` run, with all of its preconditions
discharged from `ValidInputs`: the loop-invariant facts hold of the final
store `s2` and of the final remap table `t2`. -/
theorem regraph_loop_spec {repo : Repo} {refsToUpdate : RefArg} {target : Oid × CommitData}
    {edit : CommitEdit} (hval : ValidInputs repo target edit) {s1 : Store} {n : Oid}
    (hok : create_edited_commit repo.store edit target.1 target.2 = .ok (s1, n))
    (hne : n ≠ target.1) {s2 : Store} {t2 : List (Oid × Oid)} {err : Option RegraphError}
    (hupd : update_affected_commits s1 [(target.1, n)]
      (discover_old_commits s1 (refsToUpdate.resolve { repo with store := s1 }) n) =
        (s2, t2, err)) :
    Store.Ext s1 s2 ∧ s2.WF ∧
      (∀ e ∈ t2, e.1 ≠ e.2 ∧ (s2.findCommit e.1).isSome ∧ (s2.findCommit e.2).isSome) ∧
      (∃ added, t2 = added ++ [(target.1, n)] ∧
        ∀ e ∈ added,
          e.1 ∈ discover_old_commits s1 (refsToUpdate.resolve { repo with store := s1 }) n ∧
          ∃ dOld dNew, s1.findCommit e.1 = some dOld ∧ s2.findCommit e.2 = some dNew ∧
            dNew.message = dOld.message ∧ dNew.tree_id = dOld.tree_id ∧
            dNew.author = dOld.author ∧ dNew.committer = dOld.committer ∧
            dNew.parent_ids = dOld.parent_ids.map (fun p => (tableLookup t2 p).getD p) ∧
            ∃ p ∈ dOld.parent_ids, (tableLookup t2 p).isSome) ∧
      (∀ e0, err = some e0 → ∃ c ∈ discover_old_commits s1
          (refsToUpdate.resolve { repo with store := s1 }) n,
        e0 = .commitWithInvalidUtf8Message c ∧
          ∃ d, s1.findCommit c = some d ∧ d.message.decode = none) := by
  obtain ⟨hext1, hwf1, hfn⟩ := create_edited_commit_ok hval hok
  have hseed : ∀ en ∈ [(target.1, n)],
      en.1 ≠ en.2 ∧ (s1.findCommit en.1).isSome ∧ (s1.findCommit en.2).isSome := by
    intro en hen
    simp only [List.mem_singleton] at hen
    subst hen
    exact ⟨fun hh => hne hh.symm, hext1.isSome_findCommit (by rw [hval.2.1]; rfl), hfn⟩
  exact update_affected_spec _ _ _ _ _ _ hupd hwf1
    (fun c hc => mem_oids_of_mem_walked hc)
    (walked_pairwise hwf1 _ _) (walked_irrefl hwf1 _ _) hseed

/-! ### Concrete repositories used as test inputs -/

/-- A small author/committer signature for the concrete examples. -/
def sigOf (n : String) : Signature :=
  { name := n, email := n ++ "@example.com", whenSec := 0, whenOffset := 0 }

/-- Root commit `A`, stored under id 1. -/
def dataA : CommitData :=
  { parent_ids := [], tree_id := 100, message := .utf8 "A", author := sigOf "A",
    committer := sigOf "A" }

/-- Commit `B`, child of `A`, stored under id 2. -/
def dataB : CommitData :=
  { parent_ids := [1], tree_id := 101, message := .utf8 "B", author := sigOf "B",
    committer := sigOf "B" }

/-- Commit `C`, child of `B`, stored under id 3. -/
def dataC : CommitData :=
  { parent_ids := [2], tree_id := 102, message := .utf8 "C", author := sigOf "C",
    committer := sigOf "C" }

/-- A variant of `B` whose message bytes are not valid UTF-8. -/
def dataBadB : CommitData :=
  { parent_ids := [1], tree_id := 101, message := .binary [255], author := sigOf "B",
    committer := sigOf "B" }

/-- A variant of `C` whose message bytes are not valid UTF-8. -/
def dataBadC : CommitData :=
  { parent_ids := [2], tree_id := 102, message := .binary [200], author := sigOf "C",
    committer := sigOf "C" }

/-- A local branch pointing at the given commit. -/
def masterAt (t : Oid) : Reference :=
  { name := "refs/heads/master", target := t, isRemote := false }

/-- A second local branch pointing at the given commit. -/
def featureAt (t : Oid) : Reference :=
  { name := "refs/heads/feature", target := t, isRemote := false }

/-- Repository with the chain `A(1) <- B(2) <- C(3)` and `master -> C`. -/
def repoABC : Repo :=
  { store := ⟨[(1, dataA), (2, dataB), (3, dataC)]⟩, refs := [masterAt 3], reflog := [] }

/-- Repository with the chain `A(1) <- B(2)` and `master -> B`. -/
def repoAB : Repo :=
  { store := ⟨[(1, dataA), (2, dataB)]⟩, refs := [masterAt 2], reflog := [] }

/-- Repository whose tip commit `B(2)` has an undecodable message. -/
def repoBad : Repo :=
  { store := ⟨[(1, dataA), (2, dataBadB)]⟩, refs := [masterAt 2], reflog := [] }

/-- Repository `A(1) <- B(2) <- C(3)` where the descendant `C` has an
undecodable message, and `master -> C`. -/
def repoBadC : Repo :=
  { store := ⟨[(1, dataA), (2, dataB), (3, dataBadC)]⟩, refs := [masterAt 3], reflog := [] }

/-- An edit descriptor replacing only the message. -/
def editMsgB2 : CommitEdit := { message := some "B2" }

/-- Repository `A(1) <- B(2) <- C(3)` with two local branches. -/
def repoTwoRefs : Repo :=
  { store := ⟨[(1, dataA), (2, dataB), (3, dataC)]⟩, refs := [masterAt 3, featureAt 1],
    reflog := [] }

/-! ### Claim C10 -/

/-- C10: for every target commit whose stored message is not valid UTF-8,
applying an edit descriptor fails with the invalid-message-encoding error
carrying the target's id — even when the descriptor overrides the message
field, because the original message is decoded unconditionally. -/
theorem c10_decode_not_bypassed (s : Store) (edit : CommitEdit) (origId : Oid)
    (orig : CommitData) (h : orig.message.decode = none) :
    create_edited_commit s edit origId orig =
      .error (.commitWithInvalidUtf8Message origId) := by
  rw [create_edited_commit, h]

/-- Witness for C10: a concrete binary-message commit, edited with a
message override, still fails with the invalid-message-encoding error. -/
theorem c10_witness :
    dataBadB.message.decode = none ∧
    create_edited_commit repoBad.store { message := some "override" } 2 dataBadB =
      .error (.commitWithInvalidUtf8Message 2) :=
  ⟨rfl, c10_decode_not_bypassed repoBad.store { message := some "override" } 2 dataBadB rfl⟩

/-! ### Claim C2 (code bug: the walk hides the new id, not the original) -/

/-- C2 evaluated on a concrete repository `A(1) <- B(2) <- C(3)`,
`master -> C`, editing `B`'s message: the discovery walk contains the
ORIGINAL target id 2 (the claim requires it to be excluded), because the
code hides the newly created commit's id instead of the original's. -/
theorem c2_walk_eval :
    (regraph repoABC .allLocalRefs (2, dataB) editMsgB2).walked = [2, 3] ∧
    (2 : Oid) ∈ (regraph repoABC .allLocalRefs (2, dataB) editMsgB2).walked ∧
    (1 : Oid) ∉ (regraph repoABC .allLocalRefs (2, dataB) editMsgB2).walked := by
  refine ⟨by decide, by decide, by decide⟩

/-! ### Claim C7 (code bug: the visited original target is a remap key) -/

/-- C7 evaluated on a concrete repository `A(1) <- B(2)`, `master -> B`,
editing `B`'s message: the original target `B` is visited by the rebuild
loop, none of its parents is a key of the remap table at that time (the
table is the seed `[(2, 3)]` and `B`'s only parent is 1), and yet `B` is a
key of the final remap table and `master` is retargeted — so its
identifier does not stay unchanged as the claim requires. -/
theorem c7_minimality_eval :
    (regraph repoAB .allLocalRefs (2, dataB) editMsgB2).walked = [2] ∧
    dataB.parent_ids = [1] ∧
    tableLookup [(2, 3)] 1 = none ∧
    (regraph repoAB .allLocalRefs (2, dataB) editMsgB2).table = [(2, 3)] ∧
    (regraph repoAB .allLocalRefs (2, dataB) editMsgB2).result = none ∧
    (regraph repoAB .allLocalRefs (2, dataB) editMsgB2).repo.refTarget "refs/heads/master" =
      some 3 := by
  refine ⟨by decide, by decide, by decide, by decide, by decide, by decide⟩

/-! ### Claim C9 -/

/-- C9: during a ref update, every resolved reference whose current target
is a key of the remap table is retargeted to the corresponding value with
exactly one new audit (reflog) entry for its name, and every resolved
reference whose target is not a key keeps its target and gains no audit
entry. -/
theorem c9_ref_selectivity (repo : Repo) (resolvedRefs : List Reference)
    (oldEditedOid newEditedOid : Oid) (t : List (Oid × Oid))
    (hnd : (repo.refs.map Reference.name).Nodup)
    (hres : ∀ r ∈ resolvedRefs, r ∈ repo.refs)
    (hrnd : (resolvedRefs.map Reference.name).Nodup) :
    ∀ r ∈ resolvedRefs,
      (∀ n, tableLookup t r.target = some n →
        (update_refs repo resolvedRefs oldEditedOid newEditedOid t).refTarget r.name =
          some n ∧
        ((update_refs repo resolvedRefs oldEditedOid newEditedOid t).reflog.filter
          (fun en => en.refName == r.name)).length =
          (repo.reflog.filter (fun en => en.refName == r.name)).length + 1) ∧
      (tableLookup t r.target = none →
        (update_refs repo resolvedRefs oldEditedOid newEditedOid t).refTarget r.name =
          some r.target ∧
        ((update_refs repo resolvedRefs oldEditedOid newEditedOid t).reflog.filter
          (fun en => en.refName == r.name)).length =
          (repo.reflog.filter (fun en => en.refName == r.name)).length) :=
  updateRefsGo_spec resolvedRefs repo _ t hres hnd hrnd

/-- Witness for C9: one reference whose target is remapped and one whose
target is not; the first moves and logs one entry, the second is untouched. -/
theorem c9_witness :
    ((update_refs repoTwoRefs [masterAt 3, featureAt 1] 2 4 [(3, 5)]).refTarget
        (masterAt 3).name = some 5 ∧
      ((update_refs repoTwoRefs [masterAt 3, featureAt 1] 2 4 [(3, 5)]).reflog.filter
        (fun en => en.refName == (masterAt 3).name)).length =
        (repoTwoRefs.reflog.filter (fun en => en.refName == (masterAt 3).name)).length + 1) ∧
    ((update_refs repoTwoRefs [masterAt 3, featureAt 1] 2 4 [(3, 5)]).refTarget
        (featureAt 1).name = some (featureAt 1).target ∧
      ((update_refs repoTwoRefs [masterAt 3, featureAt 1] 2 4 [(3, 5)]).reflog.filter
        (fun en => en.refName == (featureAt 1).name)).length =
        (repoTwoRefs.reflog.filter (fun en => en.refName == (featureAt 1).name)).length) :=
  ⟨(c9_ref_selectivity repoTwoRefs [masterAt 3, featureAt 1] 2 4 [(3, 5)] (by decide)
      (by decide) (by decide) (masterAt 3) (by decide)).1 5 rfl,
    (c9_ref_selectivity repoTwoRefs [masterAt 3, featureAt 1] 2 4 [(3, 5)] (by decide)
      (by decide) (by decide) (featureAt 1) (by decide)).2 rfl⟩

/-! ### Claim C3 (corrected: refs are resolved after the edit is applied) -/

/-- Discriminator for reference-update events in a trace. -/
def Event.isSetRef : Event → Bool
  | .setRefTarget _ => true
  | _ => false

/-- The amended ordering contract of a run's event trace: the edit is
applied before the refs argument is resolved, and the refs are resolved
before the discovery walk and before any reference-target update. -/
def TraceOrdered (tr : List Event) : Prop :=
  (∀ i j : Fin tr.length, tr.get i = Event.applyEdit → tr.get j = Event.resolveRefs →
    (i : Nat) < (j : Nat)) ∧
  (∀ i j : Fin tr.length, tr.get i = Event.resolveRefs → tr.get j = Event.walkCommits →
    (i : Nat) < (j : Nat)) ∧
  (∀ i j : Fin tr.length, tr.get i = Event.resolveRefs → (tr.get j).isSetRef = true →
    (i : Nat) < (j : Nat))

instance (tr : List Event) : Decidable (TraceOrdered tr) := by
  unfold TraceOrdered
  infer_instance

theorem regraph_trace_shape (repo : Repo) (refsToUpdate : RefArg) (target : Oid × CommitData)
    (edit : CommitEdit) :
    (regraph repo refsToUpdate target edit).trace = [Event.applyEdit] ∨
    ∃ tail, (regraph repo refsToUpdate target edit).trace =
        Event.applyEdit :: Event.resolveRefs :: Event.walkCommits :: tail ∧
      ∀ ev ∈ tail, ev.isSetRef = true := by
  rcases hc : create_edited_commit repo.store edit target.1 target.2 with e0 | ⟨s1, n⟩
  · rw [regraph_eq_of_create_error hc]
    exact Or.inl rfl
  · by_cases heq : n = target.1
    · rw [regraph_eq_of_nochange hc heq]
      exact Or.inl rfl
    · rcases hupd : update_affected_commits s1 [(target.1, n)]
        (discover_old_commits s1 (refsToUpdate.resolve { repo with store := s1 }) n)
        with ⟨s2, t2, err⟩
      rw [regraph_eq_of_ok hc heq hupd]
      cases err with
      | some e => exact Or.inr ⟨[], rfl, by simp⟩
      | none =>
        refine Or.inr ⟨_, rfl, ?_⟩
        intro ev hev
        rcases List.mem_filterMap.mp hev with ⟨r, _, hevEq⟩
        split at hevEq
        · injection hevEq with hevEq
          rw [← hevEq]
          rfl
        · cases hevEq

theorem trace_pos_shape2 {tail : List Event} (htail : ∀ ev ∈ tail, ev.isSetRef = true) :
    ∀ k : Fin (Event.applyEdit :: Event.resolveRefs :: Event.walkCommits :: tail).length,
      ((Event.applyEdit :: Event.resolveRefs :: Event.walkCommits :: tail).get k =
          Event.applyEdit → (k : Nat) = 0) ∧
      ((Event.applyEdit :: Event.resolveRefs :: Event.walkCommits :: tail).get k =
          Event.resolveRefs → (k : Nat) = 1) ∧
      ((Event.applyEdit :: Event.resolveRefs :: Event.walkCommits :: tail).get k =
          Event.walkCommits → (k : Nat) = 2) ∧
      (((Event.applyEdit :: Event.resolveRefs :: Event.walkCommits :: tail).get k).isSetRef
          = true → 3 ≤ (k : Nat)) := by
  intro k
  obtain ⟨kv, hk⟩ := k
  match kv, hk with
  | 0, hk =>
    exact ⟨fun _ => rfl, fun h => Event.noConfusion h, fun h => Event.noConfusion h,
      fun h => Bool.noConfusion h⟩
  | 1, hk =>
    exact ⟨fun h => Event.noConfusion h, fun _ => rfl, fun h => Event.noConfusion h,
      fun h => Bool.noConfusion h⟩
  | 2, hk =>
    exact ⟨fun h => Event.noConfusion h, fun h => Event.noConfusion h, fun _ => rfl,
      fun h => Bool.noConfusion h⟩
  | m + 3, hk =>
    have hm : m < tail.length := by
      simp only [List.length_cons] at hk
      omega
    have hget : (Event.applyEdit :: Event.resolveRefs :: Event.walkCommits :: tail).get
        ⟨m + 3, hk⟩ = tail.get ⟨m, hm⟩ := rfl
    have hset := htail _ (List.get_mem tail m hm)
    refine ⟨fun h => ?_, fun h => ?_, fun h => ?_, fun _ => Nat.le_add_left 3 m⟩
    · rw [hget] at h
      rw [h] at hset
      exact Bool.noConfusion hset
    · rw [hget] at h
      rw [h] at hset
      exact Bool.noConfusion hset
    · rw [hget] at h
      rw [h] at hset
      exact Bool.noConfusion hset

/-- C3 (amended): in every regraph run, the refs argument is resolved into
a concrete list AFTER the edit is applied to the target commit, and before
the discovery walk and before any reference-target update. -/
theorem c3_resolution_order (repo : Repo) (refsToUpdate : RefArg)
    (target : Oid × CommitData) (edit : CommitEdit) :
    TraceOrdered (regraph repo refsToUpdate target edit).trace := by
  rcases regraph_trace_shape repo refsToUpdate target edit with h | ⟨tail, h, htail⟩
  · rw [h]
    have hall : ∀ k : Fin ([Event.applyEdit].length),
        [Event.applyEdit].get k = Event.applyEdit := by
      intro k
      obtain ⟨kv, hk⟩ := k
      match kv, hk with
      | 0, _ => rfl
    refine ⟨?_, ?_, ?_⟩
    · intro i j _ h2
      rw [hall j] at h2
      exact Event.noConfusion h2
    · intro i j h1 _
      rw [hall i] at h1
      exact Event.noConfusion h1
    · intro i j h1 _
      rw [hall i] at h1
      exact Event.noConfusion h1
  · rw [h]
    have hpos := trace_pos_shape2 htail
    refine ⟨?_, ?_, ?_⟩
    · intro i j h1 h2
      have hi := (hpos i).1 h1
      have hj := (hpos j).2.1 h2
      omega
    · intro i j h1 h2
      have hi := (hpos i).2.1 h1
      have hj := (hpos j).2.2.1 h2
      omega
    · intro i j h1 h2
      have hi := (hpos i).2.1 h1
      have hj := (hpos j).2.2.2 h2
      omega

/-- C3 counterexample: on a concrete run, the claim as stated — the refs
are resolved BEFORE the edit is applied — is false: the trace records the
edit application strictly before the ref resolution. -/
theorem c3_counterexample :
    ¬ ResolveBeforeApply (regraph repoABC .allLocalRefs (2, dataB) editMsgB2).trace := by
  decide

/-- Witness for the amended C3 at a concrete run. -/
theorem c3_witness : TraceOrdered (regraph repoABC .allLocalRefs (2, dataB) editMsgB2).trace :=
  c3_resolution_order repoABC .allLocalRefs (2, dataB) editMsgB2

/-! ### Claim C1 (corrected: the no-change contract) -/

/-- C1 counterexample: an edit descriptor that keeps every field unchanged
does NOT always yield `noChange` — on a target whose stored message is not
valid UTF-8 the run fails with the invalid-message-encoding error instead. -/
theorem c1_counterexample :
    repoBad.store.WF ∧ repoBad.store.findCommit 2 = some dataBadB ∧
    (regraph repoBad .allLocalRefs (2, dataBadB) {}).result =
      some (.commitWithInvalidUtf8Message 2) ∧
    (regraph repoBad .allLocalRefs (2, dataBadB) {}).result ≠ some .noChange := by
  refine ⟨by decide, by decide, by decide, by decide⟩

/-- C1 (amended): (a) whenever applying the edit to the target yields an id
equal to the original target's id, `regraph` returns the `noChange` error;
(b) an edit descriptor keeping every field unchanged yields `noChange`
whenever the target's stored message is decodable (valid UTF-8); and
(c) the remap table never receives an identity entry (old = new). -/
theorem c1_no_change_contract :
    (∀ (repo : Repo) (refsToUpdate : RefArg) (target : Oid × CommitData) (edit : CommitEdit)
      (s1 : Store) (n : Oid),
      create_edited_commit repo.store edit target.1 target.2 = .ok (s1, n) → n = target.1 →
      (regraph repo refsToUpdate target edit).result = some .noChange) ∧
    (∀ (repo : Repo) (refsToUpdate : RefArg) (target : Oid × CommitData),
      repo.store.WF → repo.store.findCommit target.1 = some target.2 →
      target.2.message.decode ≠ none →
      (regraph repo refsToUpdate target ({} : CommitEdit)).result = some .noChange) ∧
    (∀ (repo : Repo) (refsToUpdate : RefArg) (target : Oid × CommitData) (edit : CommitEdit),
      ValidInputs repo target edit →
      ∀ e ∈ (regraph repo refsToUpdate target edit).table, e.1 ≠ e.2) := by
  refine ⟨?_, ?_, ?_⟩
  · intro repo refsToUpdate target edit s1 n hok heq
    rw [regraph_eq_of_nochange hok heq]
  · intro repo refsToUpdate target hwf hfind hdec
    obtain ⟨origMsg, hmsg⟩ := Option.ne_none_iff_exists'.mp hdec
    have hmsgEq : target.2.message = .utf8 origMsg := Msg.eq_utf8_of_decode hmsg
    have hcreate : create_edited_commit repo.store {} target.1 target.2 =
        .ok (repo.store.createCommit target.2) := by
      simp only [create_edited_commit, hmsg, Option.getD_none]
      rw [← hmsgEq]
    have hlook : repo.store.createCommit target.2 = (repo.store, target.1) := by
      rw [Store.createCommit]
      have hl : repo.store.lookupByData target.2 = some target.1 :=
        lookupByDataAux_of_mem_nodup hwf.2.1 (findCommitAux_eq_some_mem hfind)
      rw [hl]
    rw [hlook] at hcreate
    rw [regraph_eq_of_nochange hcreate rfl]
  · intro repo refsToUpdate target edit hval e he
    rcases hc : create_edited_commit repo.store edit target.1 target.2 with e0 | ⟨s1, n⟩
    · rw [regraph_eq_of_create_error hc] at he
      simp at he
    · by_cases heq : n = target.1
      · rw [regraph_eq_of_nochange hc heq] at he
        simp at he
      · rcases hupd : update_affected_commits s1 [(target.1, n)]
          (discover_old_commits s1 (refsToUpdate.resolve { repo with store := s1 }) n)
          with ⟨s2, t2, err⟩
        obtain ⟨-, -, htab2, -, -⟩ := regraph_loop_spec hval hc heq hupd
        rw [regraph_eq_of_ok hc heq hupd] at he
        cases err with
        | some e2 => exact (htab2 e he).1
        | none => exact (htab2 e he).1

/-- Witness for the amended C1: a keep-everything edit on a valid target
yields `noChange` both through conjunct (a) and through conjunct (b), and
on a run that does rebuild commits no table entry is an identity. -/
theorem c1_witness :
    create_edited_commit repoABC.store {} 2 dataB = .ok (repoABC.store, 2) ∧
    (regraph repoABC .allLocalRefs (2, dataB) ({} : CommitEdit)).result = some .noChange ∧
    ∀ e ∈ (regraph repoABC .allLocalRefs (2, dataB) editMsgB2).table, e.1 ≠ e.2 :=
  ⟨rfl,
    c1_no_change_contract.1 repoABC .allLocalRefs (2, dataB) {} repoABC.store 2 rfl rfl,
    c1_no_change_contract.2.2 repoABC .allLocalRefs (2, dataB) editMsgB2 (by decide)⟩

/-! ### Claim C4 (the walk is parents-before-children) -/

theorem walk_order_store {s1 : Store} (hwf1 : s1.WF) {sF : Store} (hextF : s1.Ext sF)
    (resolved : List Reference) (n : Oid) :
    ∀ (i j : Fin (discover_old_commits s1 resolved n).length) (d : CommitData),
      sF.findCommit ((discover_old_commits s1 resolved n).get i) = some d →
      (discover_old_commits s1 resolved n).get j ∈ d.parent_ids →
      (j : Nat) < (i : Nat) := by
  intro i j d hfind hmem
  have hmemW : (discover_old_commits s1 resolved n).get i ∈ discover_old_commits s1 resolved n :=
    (discover_old_commits s1 resolved n).get_mem _ _
  obtain ⟨d₀, hd₀⟩ := isSome_exists_findCommit (mem_oids_of_mem_walked hmemW)
  have hup := hextF.findCommit_eq hd₀
  rw [hfind] at hup
  injection hup with hup
  subst hup
  have hpw := walked_pairwise hwf1 resolved n
  have hirr := walked_irrefl hwf1 resolved n
  rcases Nat.lt_trichotomy (j : Nat) (i : Nat) with hlt | hmid | hgt
  · exact hlt
  · exfalso
    have hij : j = i := Fin.ext hmid
    subst hij
    exact hirr _ hmemW d hd₀ hmem
  · exfalso
    have hrel := List.pairwise_iff_get.mp hpw i j (by rw [Fin.lt_def]; omega)
    exact hrel d hd₀ hmem

/-- C4: in every regraph run, the sequence of commit ids produced by the
discovery walk (and consumed, in that order, by the rebuild loop) visits
each commit only after all of its parents in the walked set: whenever the
j-th walked id is a parent of the i-th walked commit, j comes strictly
before i. -/
theorem c4_parents_before_children (repo : Repo) (refsToUpdate : RefArg)
    (target : Oid × CommitData) (edit : CommitEdit) (hval : ValidInputs repo target edit) :
    ∀ (i j : Fin (regraph repo refsToUpdate target edit).walked.length) (d : CommitData),
      (regraph repo refsToUpdate target edit).repo.store.findCommit
        ((regraph repo refsToUpdate target edit).walked.get i) = some d →
      (regraph repo refsToUpdate target edit).walked.get j ∈ d.parent_ids →
      (j : Nat) < (i : Nat) := by
  rcases hc : create_edited_commit repo.store edit target.1 target.2 with e0 | ⟨s1, n⟩
  · rw [regraph_eq_of_create_error hc]
    intro i
    exact i.elim0
  · by_cases heq : n = target.1
    · rw [regraph_eq_of_nochange hc heq]
      intro i
      exact i.elim0
    · obtain ⟨hext1, hwf1, -⟩ := create_edited_commit_ok hval hc
      rcases hupd : update_affected_commits s1 [(target.1, n)]
        (discover_old_commits s1 (refsToUpdate.resolve { repo with store := s1 }) n)
        with ⟨s2, t2, err⟩
      obtain ⟨hext2, -, -, -, -⟩ := regraph_loop_spec hval hc heq hupd
      rw [regraph_eq_of_ok hc heq hupd]
      cases err with
      | some e2 => exact walk_order_store hwf1 hext2 _ _
      | none =>
        intro i j d hfind hmem
        rw [update_refs_store] at hfind
        exact walk_order_store hwf1 hext2 _ _ i j d hfind hmem

/-- Witness for C4: in the concrete squash-style run on `repoABC`, commit
3 (whose parent 2 was rebuilt) is walked strictly after commit 2. -/
theorem c4_witness : (0 : Nat) < (1 : Nat) :=
  c4_parents_before_children repoABC .allLocalRefs (2, dataB) editMsgB2 (by decide)
    ⟨1, by decide⟩ ⟨0, by decide⟩ dataC (by decide) (by decide)

/-! ### Claims C5 and C6 (content preservation and parent substitution) -/

theorem get_map_of_eq {α : Type _} {l l2 : List α} {f : α → α} (h : l2 = l.map f)
    (i : Nat) (hi : i < l2.length) (hi2 : i < l.length) :
    l2.get ⟨i, hi⟩ = f (l.get ⟨i, hi2⟩) := by
  subst h
  simp

/-- C5: in a successful regraph run, every rebuilt descendant (every remap
entry other than the seeded target entry) preserves the original commit's
message, tree, author and committer byte for byte; the parent list keeps
its length, and a position may change only when the original parent id at
that position is a key of the remap table. -/
theorem c5_content_preservation (repo : Repo) (refsToUpdate : RefArg)
    (target : Oid × CommitData) (edit : CommitEdit) (hval : ValidInputs repo target edit)
    (hsucc : (regraph repo refsToUpdate target edit).result = none) :
    ∀ k v, (k, v) ∈ (regraph repo refsToUpdate target edit).table → k ≠ target.1 →
      ∃ dOld dNew,
        (regraph repo refsToUpdate target edit).repo.store.findCommit k = some dOld ∧
        (regraph repo refsToUpdate target edit).repo.store.findCommit v = some dNew ∧
        dNew.message = dOld.message ∧ dNew.tree_id = dOld.tree_id ∧
        dNew.author = dOld.author ∧ dNew.committer = dOld.committer ∧
        dNew.parent_ids.length = dOld.parent_ids.length ∧
        ∀ (i : Nat) (hi : i < dNew.parent_ids.length) (hi2 : i < dOld.parent_ids.length),
          dNew.parent_ids.get ⟨i, hi⟩ ≠ dOld.parent_ids.get ⟨i, hi2⟩ →
          dOld.parent_ids.get ⟨i, hi2⟩ ∈
            (regraph repo refsToUpdate target edit).table.map Prod.fst := by
  intro k v hkv hne_target
  rcases hc : create_edited_commit repo.store edit target.1 target.2 with e0 | ⟨s1, n⟩
  · rw [regraph_eq_of_create_error hc] at hkv
    simp at hkv
  · by_cases heq : n = target.1
    · rw [regraph_eq_of_nochange hc heq] at hkv
      simp at hkv
    · rcases hupd : update_affected_commits s1 [(target.1, n)]
        (discover_old_commits s1 (refsToUpdate.resolve { repo with store := s1 }) n)
        with ⟨s2, t2, err⟩
      obtain ⟨hext2, -, -, ⟨added, htadd, haddprops⟩, -⟩ := regraph_loop_spec hval hc heq hupd
      cases err with
      | some e2 =>
        rw [(regraph_fields_some hc heq hupd).1] at hsucc
        exact absurd hsucc (by simp)
      | none =>
        obtain ⟨-, htbl, -, hstore⟩ := regraph_fields_none hc heq hupd
        rw [htbl] at hkv
        rw [htbl, hstore]
        have hkv2 : (k, v) ∈ added := by
          rw [htadd] at hkv
          rcases List.mem_append.mp hkv with h | h
          · exact h
          · exfalso
            simp only [List.mem_singleton, Prod.mk.injEq] at h
            exact hne_target h.1
        obtain ⟨-, dOld, dNew, hdo, hdn, hmsg, htree, hauth, hcomm, hpar, -⟩ :=
          haddprops (k, v) hkv2
        refine ⟨dOld, dNew, hext2.findCommit_eq hdo, hdn, hmsg, htree, hauth, hcomm, ?_, ?_⟩
        · rw [hpar, List.length_map]
        · intro i hi hi2 hneq
          have hget := get_map_of_eq hpar i hi hi2
          cases hl : tableLookup t2 (dOld.parent_ids.get ⟨i, hi2⟩) with
          | none =>
            rw [hl] at hget
            simp only [Option.getD_none] at hget
            exact absurd hget hneq
          | some w =>
            exact List.mem_map.mpr ⟨(dOld.parent_ids.get ⟨i, hi2⟩, w),
              tableLookup_eq_some_mem hl, rfl⟩

/-- Witness for C5: in the concrete run on `repoABC`, the rebuilt commit
`C` (old id 3, new id 5) preserves everything but its remapped parent. -/
theorem c5_witness :
    ∃ dOld dNew,
      (regraph repoABC .allLocalRefs (2, dataB) editMsgB2).repo.store.findCommit 3 =
        some dOld ∧
      (regraph repoABC .allLocalRefs (2, dataB) editMsgB2).repo.store.findCommit 5 =
        some dNew ∧
      dNew.message = dOld.message ∧ dNew.tree_id = dOld.tree_id ∧
      dNew.author = dOld.author ∧ dNew.committer = dOld.committer ∧
      dNew.parent_ids.length = dOld.parent_ids.length ∧
      ∀ (i : Nat) (hi : i < dNew.parent_ids.length) (hi2 : i < dOld.parent_ids.length),
        dNew.parent_ids.get ⟨i, hi⟩ ≠ dOld.parent_ids.get ⟨i, hi2⟩ →
        dOld.parent_ids.get ⟨i, hi2⟩ ∈
          (regraph repoABC .allLocalRefs (2, dataB) editMsgB2).table.map Prod.fst :=
  c5_content_preservation repoABC .allLocalRefs (2, dataB) editMsgB2 (by decide) (by decide)
    3 5 (by decide) (by decide)

/-- C6: for every commit rebuilt during a regraph run, the new parent list
has the same length and order as the original, and equals the original
parent list with each id substituted through the remap table (remapped
image when the id is a key, the id itself otherwise, occurrence by
occurrence). -/
theorem c6_parent_remap (repo : Repo) (refsToUpdate : RefArg) (target : Oid × CommitData)
    (edit : CommitEdit) (hval : ValidInputs repo target edit) :
    ∀ k v, (k, v) ∈ (regraph repo refsToUpdate target edit).table → k ≠ target.1 →
      ∃ dOld dNew,
        (regraph repo refsToUpdate target edit).repo.store.findCommit k = some dOld ∧
        (regraph repo refsToUpdate target edit).repo.store.findCommit v = some dNew ∧
        dNew.parent_ids.length = dOld.parent_ids.length ∧
        dNew.parent_ids = dOld.parent_ids.map (fun p =>
          (tableLookup (regraph repo refsToUpdate target edit).table p).getD p) := by
  intro k v hkv hne_target
  rcases hc : create_edited_commit repo.store edit target.1 target.2 with e0 | ⟨s1, n⟩
  · rw [regraph_eq_of_create_error hc] at hkv
    simp at hkv
  · by_cases heq : n = target.1
    · rw [regraph_eq_of_nochange hc heq] at hkv
      simp at hkv
    · rcases hupd : update_affected_commits s1 [(target.1, n)]
        (discover_old_commits s1 (refsToUpdate.resolve { repo with store := s1 }) n)
        with ⟨s2, t2, err⟩
      obtain ⟨hext2, -, -, ⟨added, htadd, haddprops⟩, -⟩ := regraph_loop_spec hval hc heq hupd
      have hfields : (regraph repo refsToUpdate target edit).table = t2 ∧
          (regraph repo refsToUpdate target edit).repo.store = s2 := by
        cases err with
        | some e2 =>
          obtain ⟨-, htbl, -, hstore, -, -⟩ := regraph_fields_some hc heq hupd
          exact ⟨htbl, hstore⟩
        | none =>
          obtain ⟨-, htbl, -, hstore⟩ := regraph_fields_none hc heq hupd
          exact ⟨htbl, hstore⟩
      rw [hfields.1] at hkv
      rw [hfields.1, hfields.2]
      have hkv2 : (k, v) ∈ added := by
        rw [htadd] at hkv
        rcases List.mem_append.mp hkv with h | h
        · exact h
        · exfalso
          simp only [List.mem_singleton, Prod.mk.injEq] at h
          exact hne_target h.1
      obtain ⟨-, dOld, dNew, hdo, hdn, -, -, -, -, hpar, -⟩ := haddprops (k, v) hkv2
      exact ⟨dOld, dNew, hext2.findCommit_eq hdo, hdn, (by rw [hpar, List.length_map]), hpar⟩

/-- Witness for C6: the rebuilt commit `C` in the concrete run has its
parent list equal to the original parents substituted through the table. -/
theorem c6_witness :
    ∃ dOld dNew,
      (regraph repoABC .allLocalRefs (2, dataB) editMsgB2).repo.store.findCommit 3 =
        some dOld ∧
      (regraph repoABC .allLocalRefs (2, dataB) editMsgB2).repo.store.findCommit 5 =
        some dNew ∧
      dNew.parent_ids.length = dOld.parent_ids.length ∧
      dNew.parent_ids = dOld.parent_ids.map (fun p =>
        (tableLookup (regraph repoABC .allLocalRefs (2, dataB) editMsgB2).table p).getD p) :=
  c6_parent_remap repoABC .allLocalRefs (2, dataB) editMsgB2 (by decide) 3 5 (by decide)
    (by decide)

/-! ### Claim C8 (invalid message aborts the run; refs stay untouched) -/

/-- Commit `D`, child of `C`, whose message bytes are not valid UTF-8. -/
def dataBadD : CommitData :=
  { parent_ids := [3], tree_id := 103, message := .binary [201], author := sigOf "D",
    committer := sigOf "D" }

/-- Repository `A(1) <- B(2) <- C(3) <- D(4)` where the depth-two
descendant `D` of `B` has an undecodable message, with `master -> D`. -/
def repoDeep : Repo :=
  { store := ⟨[(1, dataA), (2, dataB), (3, dataC), (4, dataBadD)]⟩, refs := [masterAt 4],
    reflog := [] }

/-- C8: (i) whenever `regraph` returns any error, no reference target and
no reflog entry has been changed; (ii) if any commit on the rewrite path
below the edited target (`affectedBy`, at arbitrary depth) has an
undecodable message, the run fails with the invalid-message-encoding
error carrying the id of an undecodable walked commit; (iii) if the
edited target's own message is undecodable, the run fails with the
invalid-message-encoding error carrying the target's id and no reference
target or reflog entry is changed. -/
theorem c8_invalid_message_aborts :
    (∀ (repo : Repo) (refsToUpdate : RefArg) (target : Oid × CommitData) (edit : CommitEdit)
      (e : RegraphError),
      (regraph repo refsToUpdate target edit).result = some e →
      (regraph repo refsToUpdate target edit).repo.refs = repo.refs ∧
      (regraph repo refsToUpdate target edit).repo.reflog = repo.reflog) ∧
    (∀ (repo : Repo) (refsToUpdate : RefArg) (target : Oid × CommitData) (edit : CommitEdit),
      ValidInputs repo target edit →
      ∀ c d,
        c ∈ affectedBy (regraph repo refsToUpdate target edit).repo.store [target.1]
          (regraph repo refsToUpdate target edit).walked →
        (regraph repo refsToUpdate target edit).repo.store.findCommit c = some d →
        d.message.decode = none →
        ∃ c2, (regraph repo refsToUpdate target edit).result =
            some (.commitWithInvalidUtf8Message c2) ∧
          c2 ∈ (regraph repo refsToUpdate target edit).walked ∧
          ∃ d2, (regraph repo refsToUpdate target edit).repo.store.findCommit c2 =
              some d2 ∧ d2.message.decode = none) ∧
    (∀ (repo : Repo) (refsToUpdate : RefArg) (target : Oid × CommitData) (edit : CommitEdit),
      target.2.message.decode = none →
      (regraph repo refsToUpdate target edit).result =
        some (.commitWithInvalidUtf8Message target.1) ∧
      (regraph repo refsToUpdate target edit).repo.refs = repo.refs ∧
      (regraph repo refsToUpdate target edit).repo.reflog = repo.reflog) := by
  refine ⟨?_, ?_, ?_⟩
  · intro repo refsToUpdate target edit e hres
    rcases hc : create_edited_commit repo.store edit target.1 target.2 with e0 | ⟨s1, n⟩
    · rw [regraph_eq_of_create_error hc]
      exact ⟨rfl, rfl⟩
    · by_cases heq : n = target.1
      · rw [regraph_eq_of_nochange hc heq]
        exact ⟨rfl, rfl⟩
      · rcases hupd : update_affected_commits s1 [(target.1, n)]
          (discover_old_commits s1 (refsToUpdate.resolve { repo with store := s1 }) n)
          with ⟨s2, t2, err⟩
        cases err with
        | some e2 =>
          obtain ⟨-, -, -, -, hrefs, hlog⟩ := regraph_fields_some hc heq hupd
          exact ⟨hrefs, hlog⟩
        | none =>
          rw [(regraph_fields_none hc heq hupd).1] at hres
          exact absurd hres (by simp)
  · intro repo refsToUpdate target edit hval c d hcaff hfind hdec
    rcases hc : create_edited_commit repo.store edit target.1 target.2 with e0 | ⟨s1, n⟩
    · rw [regraph_eq_of_create_error hc] at hcaff
      simp [affectedBy] at hcaff
    · by_cases heq : n = target.1
      · rw [regraph_eq_of_nochange hc heq] at hcaff
        simp [affectedBy] at hcaff
      · obtain ⟨hext1, hwf1, hfn⟩ := create_edited_commit_ok hval hc
        rcases hupd : update_affected_commits s1 [(target.1, n)]
          (discover_old_commits s1 (refsToUpdate.resolve { repo with store := s1 }) n)
          with ⟨s2, t2, err⟩
        obtain ⟨hext2, -, -, -, herrchar⟩ := regraph_loop_spec hval hc heq hupd
        have hws : (regraph repo refsToUpdate target edit).walked =
            discover_old_commits s1 (refsToUpdate.resolve { repo with store := s1 }) n ∧
            (regraph repo refsToUpdate target edit).repo.store = s2 := by
          cases err with
          | some e2 =>
            obtain ⟨-, -, hw, hs, -, -⟩ := regraph_fields_some hc heq hupd
            exact ⟨hw, hs⟩
          | none =>
            obtain ⟨-, -, hw, hs⟩ := regraph_fields_none hc heq hupd
            exact ⟨hw, hs⟩
        rw [hws.1, hws.2] at hcaff
        rw [hws.2] at hfind
        have hmemW : ∀ x ∈ discover_old_commits s1
            (refsToUpdate.resolve { repo with store := s1 }) n, x ∈ s1.oids :=
          fun x hx => mem_oids_of_mem_walked hx
        rw [affectedBy_ext hext2 _ hmemW [target.1]] at hcaff
        have hcw : c ∈ discover_old_commits s1
            (refsToUpdate.resolve { repo with store := s1 }) n :=
          affectedBy_sub s1 _ [target.1] c hcaff
        have hfind1 : s1.findCommit c = some d := by
          obtain ⟨d₀, hd₀⟩ := isSome_exists_findCommit (mem_oids_of_mem_walked hcw)
          have hup := hext2.findCommit_eq hd₀
          rw [hfind] at hup
          injection hup with hup
          rw [← hup] at hd₀
          exact hd₀
        have hseed : ∀ en ∈ [(target.1, n)],
            en.1 ≠ en.2 ∧ (s1.findCommit en.1).isSome ∧ (s1.findCommit en.2).isSome := by
          intro en hen
          simp only [List.mem_singleton] at hen
          subst hen
          exact ⟨fun hh => heq hh.symm,
            hext1.isSome_findCommit (by rw [hval.2.1]; rfl), hfn⟩
        have hkeys0 : ∀ p : Oid,
            p ∈ [target.1] ↔ (tableLookup [(target.1, n)] p).isSome = true := by
          intro p
          by_cases hpc : p = target.1
          · subst hpc
            simp [tableLookup]
          · rw [tableLookup_cons_ne hpc]
            simp [tableLookup, hpc]
        have hforced := update_affected_forces_path
          (discover_old_commits s1 (refsToUpdate.resolve { repo with store := s1 }) n)
          s1 [(target.1, n)] [target.1] hwf1 hmemW hseed hkeys0
          ⟨c, hcaff, d, hfind1, hdec⟩
        rw [hupd] at hforced
        obtain ⟨e2, he2⟩ := Option.isSome_iff_exists.mp hforced
        subst he2
        obtain ⟨c2, hc2w, he2eq, d2, hd2, hdec2⟩ := herrchar e2 rfl
        subst he2eq
        obtain ⟨hres2, -, hw2, hs2, -, -⟩ := regraph_fields_some hc heq hupd
        refine ⟨c2, hres2, ?_, d2, ?_, hdec2⟩
        · rw [hw2]
          exact hc2w
        · rw [hs2]
          exact hext2.findCommit_eq hd2
  · intro repo refsToUpdate target edit hdec
    have hcreate : create_edited_commit repo.store edit target.1 target.2 =
        .error (.commitWithInvalidUtf8Message target.1) := by
      rw [create_edited_commit, hdec]
    rw [regraph_eq_of_create_error hcreate]
    exact ⟨rfl, rfl, rfl⟩

/-- Witness for C8: on `repoDeep` the depth-two descendant `D` (id 4) of
the edited commit `B` is on the rewrite path with an undecodable message,
so the run fails with its id and leaves the refs and the reflog
untouched; on `repoBad`, editing the undecodable target `B` itself fails
with the target's id. -/
theorem c8_witness :
    ((regraph repoDeep .allLocalRefs (2, dataB) editMsgB2).repo.refs = repoDeep.refs ∧
      (regraph repoDeep .allLocalRefs (2, dataB) editMsgB2).repo.reflog = repoDeep.reflog) ∧
    (∃ c2, (regraph repoDeep .allLocalRefs (2, dataB) editMsgB2).result =
        some (.commitWithInvalidUtf8Message c2) ∧
      c2 ∈ (regraph repoDeep .allLocalRefs (2, dataB) editMsgB2).walked ∧
      ∃ d2, (regraph repoDeep .allLocalRefs (2, dataB) editMsgB2).repo.store.findCommit c2 =
          some d2 ∧ d2.message.decode = none) ∧
    (regraph repoBad .allLocalRefs (2, dataBadB) editMsgB2).result =
      some (.commitWithInvalidUtf8Message 2) :=
  ⟨c8_invalid_message_aborts.1 repoDeep .allLocalRefs (2, dataB) editMsgB2
      (.commitWithInvalidUtf8Message 4) (by decide),
    c8_invalid_message_aborts.2.1 repoDeep .allLocalRefs (2, dataB) editMsgB2 (by decide)
      4 dataBadD (by decide) (by decide) rfl,
    (c8_invalid_message_aborts.2.2 repoBad .allLocalRefs (2, dataBadB) editMsgB2 rfl).1⟩

end GitRegraph
